import Mathlib

/-!
Verification of the Lariat container (a linked list of fixed-capacity arrays)
against its specification.  The C++ template `Lariat<T, Size>` from
`lariat.h` / `lariat.cpp` is embedded shallowly: a node (`LNode`) is a live
count together with its slot contents, the container is the ordered chain of
nodes from `head_` to `tail_` together with the tracked `size_` and
`nodecount_` fields, and each member function becomes a Lean function on that
state.  Element type `T` is instantiated at `Nat`; the capacity `Size`
(`asize_`) is the parameter `C`.  Fallible operations return an `Outcome`
describing whether the C++ code returns normally, throws
`LariatException(E_NO_MEMORY)`, throws `LariatException(E_BAD_INDEX)`, or runs
into undefined behaviour (null dereference / out-of-array access).
-/

/-- Writing slot `i` of a node's value array (`node->values[i] = v`). -/
def updSlot (vs : Nat → Nat) (i : Nat) (v : Nat) : Nat → Nat :=
  fun k => if k = i then v else vs k

/-- One node of the chain (`struct LNode`): the number of live elements
(`count`) and the contents of the value array.  The array is modelled as a
total function on slot numbers; the C++ array only has `Size` cells and cells
at or beyond `count` hold indeterminate data, modelled here as the fixed junk
value `0` that a fresh node starts with. -/
structure LNode where
  count : Nat
  values : Nat → Nat

/-- A freshly allocated node: `count = 0` (default member initializer), array
contents indeterminate (modelled as the junk value 0). -/
def newLNode : LNode := { count := 0, values := fun _ => 0 }

/-- The live elements of a node in slot order: `values[0] .. values[count-1]`. -/
def LNode.live (n : LNode) : List Nat := (List.range n.count).map n.values

/-- The container state: the chain of nodes in order from `head_` to `tail_`,
plus the tracked member fields `size_` and `nodecount_`.  The `prev`/`next`
pointers of the doubly linked chain are represented by list adjacency; `head_`
is the first list entry and `tail_` the last (both "null" exactly when the
list is empty). -/
structure Lariat where
  nodes : List LNode
  size_ : Nat
  nodecount_ : Nat

/-- The empty container built by the default constructor. -/
def emptyLariat : Lariat := { nodes := [], size_ := 0, nodecount_ := 0 }

/-- Reading the node at position `k` of the chain (a non-null node pointer in
the C++ code; positions off the chain yield the default fresh node and are
never reached by the verified paths). -/
def getN (nodes : List LNode) (k : Nat) : LNode := nodes.getD k newLNode

/-- Replacing the node at position `k` of the chain (mutation through a node
pointer). -/
def setN (nodes : List LNode) (k : Nat) (n : LNode) : List LNode := nodes.set k n

/-- How each C++ entry point finishes: normal return, thrown
`E_NO_MEMORY`, thrown `E_BAD_INDEX`, or undefined behaviour (null
dereference or out-of-array access). -/
inductive Outcome where
  | ok
  | oom
  | badIndex
  | undef
deriving DecidableEq

/-- The slot indices visited by the loop `for (i = localIndex; i < count; ++i)`
of `shiftDown`; iteration `i` reads slot `i + 1` and writes slot `i`. -/
def shiftDownIdx (localIndex count : Nat) : List Nat :=
  List.range' localIndex (count - localIndex)

/-- The slots read by `shiftDown`'s loop: `i + 1` for each visited `i`. -/
def shiftDownReads (localIndex count : Nat) : List Nat :=
  (shiftDownIdx localIndex count).map (fun i => i + 1)

/-- The slots written by `shiftDown`'s loop: each visited `i`. -/
def shiftDownWrites (localIndex count : Nat) : List Nat :=
  shiftDownIdx localIndex count

/-- The body of `shiftDown`, iterated over the visited indices:
`values[i] = values[i + 1]`, each iteration acting on the array left by the
previous one. -/
def shiftDownGo (vs : Nat → Nat) : List Nat → (Nat → Nat)
  | [] => vs
  | i :: rest => shiftDownGo (updSlot vs i (vs (i + 1))) rest

/-- `Lariat::shiftDown(node, localIndex)`: copies each element from
`localIndex` onward one slot toward the front.  Note the final iteration
(`i = count - 1`) reads slot `count`, one past the live range. -/
def shiftDown (n : LNode) (localIndex : Nat) : LNode :=
  { n with values := shiftDownGo n.values (shiftDownIdx localIndex n.count) }

/-- The slot indices visited by the loop `for (i = localIndex + 1; i < count; ++i)`
of `shiftUp`. -/
def shiftUpIdx (localIndex count : Nat) : List Nat :=
  List.range' (localIndex + 1) (count - (localIndex + 1))

/-- The three-assignment swap of the `shiftUp` loop body
(`temp = values[localIndex]; values[localIndex] = values[i]; values[i] = temp`). -/
def swapWith (vs : Nat → Nat) (localIndex i : Nat) : Nat → Nat :=
  fun k => if k = localIndex then vs i else if k = i then vs localIndex else vs k

/-- The body of `shiftUp`, iterated over the visited indices: swap
`values[localIndex]` with `values[i]`. -/
def shiftUpGo (vs : Nat → Nat) (localIndex : Nat) : List Nat → (Nat → Nat)
  | [] => vs
  | i :: rest => shiftUpGo (swapWith vs localIndex i) localIndex rest

/-- `Lariat::shiftUp(node, localIndex)`: repeatedly swaps `values[localIndex]`
with each later live slot, rotating the subrange `[localIndex, count)` right
by one (the last live element lands at `localIndex`). -/
def shiftUp (n : LNode) (localIndex : Nat) : LNode :=
  { n with values := shiftUpGo n.values localIndex (shiftUpIdx localIndex n.count) }

/-- The number of elements `Lariat::split` moves into the new node:
`count / 2`, minus one more kept in the original node when `count` is even. -/
def numSplitOf (count : Nat) : Nat :=
  count / 2 - (if count % 2 = 0 then 1 else 0)

/-- The value array of the node created by `split`: the copy loop places
`node->values[count - numSplit + j]` in slot `j` for `j < numSplit`; all other
slots keep the fresh node's junk contents. -/
def splitVals (src : Nat → Nat) (start numSplit : Nat) : Nat → Nat :=
  fun j => if j < numSplit then src (start + j) else 0

/-- What remains of the original node after `split`: its count drops by
`numSplit`, its storage is untouched. -/
def splitKeep (n : LNode) : LNode :=
  { count := n.count - numSplitOf n.count, values := n.values }

/-- The node created by `split`: a fresh node that received the last
`numSplit` elements of the original (`splitNode->count += numSplit`). -/
def splitNew (n : LNode) : LNode :=
  { count := numSplitOf n.count
    values := splitVals n.values (n.count - numSplitOf n.count) (numSplitOf n.count) }

/-- `Lariat::split(node)` at chain position `k`, with `alloc` telling whether
the `new LNode` succeeds.  `numSplit` is computed first; the allocation
happens before any element is moved, so on failure (`E_NO_MEMORY`) the state
is returned untouched.  On success the original node keeps its first
`count - numSplit` elements, the new node holds the last `numSplit` in order
and is linked immediately after position `k` (so it becomes `tail_` when the
original was); the function returns the new node's position. -/
def splitE (alloc : Bool) (L : Lariat) (k : Nat) : Outcome × Lariat × Nat :=
  let n := getN L.nodes k
  if alloc then
    (Outcome.ok,
      { L with
          nodes := L.nodes.take k ++ [splitKeep n, splitNew n] ++ L.nodes.drop (k + 1)
          nodecount_ := L.nodecount_ + 1 },
      k + 1)
  else (Outcome.oom, L, k)

/-- `Lariat::push_first_value(value)`: allocates the first node (before any
other mutation), makes it both head and tail, stores the value in slot 0 and
bumps the counters. -/
def push_first_valueE (alloc : Bool) (L : Lariat) (v : Nat) : Outcome × Lariat :=
  if alloc then
    (Outcome.ok,
      { nodes := [{ count := 1, values := updSlot (fun _ => 0) 0 v }]
        size_ := L.size_ + 1
        nodecount_ := L.nodecount_ + 1 })
  else (Outcome.oom, L)

/-- `Lariat::push_back_in_node(node, value)` with the node at chain position
`k`: splits the node first when it has no room, then stores the value in the
next free slot and bumps `count` and `size_`. -/
def push_back_in_nodeE (C : Nat) (alloc : Bool) (L : Lariat) (k : Nat) (v : Nat) :
    Outcome × Lariat :=
  let step := if C ≤ (getN L.nodes k).count then splitE alloc L k else (Outcome.ok, L, k)
  match step with
  | (Outcome.ok, L1, k1) =>
    let n := getN L1.nodes k1
    (Outcome.ok,
      { L1 with
          nodes := setN L1.nodes k1 { n with values := updSlot n.values n.count v, count := n.count + 1 }
          size_ := L1.size_ + 1 })
  | (st, L1, _) => (st, L1)

/-- `Lariat::push_back(value)`: first value goes through `push_first_value`;
otherwise a full tail is split (unconditionally) and the value is placed in
the post-split tail via `push_back_in_node`. -/
def push_backE (C : Nat) (alloc : Bool) (L : Lariat) (v : Nat) : Outcome × Lariat :=
  if L.nodes.isEmpty then push_first_valueE alloc L v
  else
    let tIdx := L.nodes.length - 1
    if (getN L.nodes tIdx).count = C then
      match splitE alloc L tIdx with
      | (Outcome.ok, L1, _) => push_back_in_nodeE C alloc L1 (L1.nodes.length - 1) v
      | (st, L1, _) => (st, L1)
    else push_back_in_nodeE C alloc L tIdx v

/-- `Lariat::push_front(value)`: first value through `push_first_value`; a
full head is rotated (`shiftUp(head_, 0)`), its slot 0 overwritten with the
new value, the displaced element remembered as overflow, the head split and
the overflow appended to the split node; a head with room gets the value at
its next free slot and is then rotated so the value lands at slot 0.  Note
that on the full-head path the rotation and overwrite happen before `split`
allocates. -/
def push_frontE (C : Nat) (alloc : Bool) (L : Lariat) (v : Nat) : Outcome × Lariat :=
  if L.nodes.isEmpty then push_first_valueE alloc L v
  else
    let h := getN L.nodes 0
    if h.count = C then
      let h1 := shiftUp h 0
      let overflow := h1.values 0
      let h2 := { h1 with values := updSlot h1.values 0 v }
      let L1 := { L with nodes := setN L.nodes 0 h2 }
      match splitE alloc L1 0 with
      | (Outcome.ok, L2, k2) => push_back_in_nodeE C alloc L2 k2 overflow
      | (st, L2, _) => (st, L2)
    else
      let h1 := { h with values := updSlot h.values h.count v, count := h.count + 1 }
      let h2 := shiftUp h1 0
      (Outcome.ok, { L with nodes := setN L.nodes 0 h2, size_ := L.size_ + 1 })

/-- `Lariat::insert_in_full_node(node, localIndex, value)` with the node at
chain position `k`: rotate the node (`shiftUp`), remember the displaced last
element as overflow, overwrite slot `localIndex` with the new value, then
split (the only allocation, happening after those mutations) and append the
overflow to the split node. -/
def insert_in_full_nodeE (C : Nat) (alloc : Bool) (L : Lariat) (k li : Nat) (v : Nat) :
    Outcome × Lariat :=
  let n := getN L.nodes k
  let n1 := shiftUp n li
  let overflow := n1.values li
  let n2 := { n1 with values := updSlot n1.values li v }
  let L1 := { L with nodes := setN L.nodes k n2 }
  match splitE alloc L1 k with
  | (Outcome.ok, L2, k2) => push_back_in_nodeE C alloc L2 k2 overflow
  | (st, L2, _) => (st, L2)

/-- `Lariat::find_element(index)`: walks the chain accumulating counts while
`indexSum + walker->count <= index`, returning the reached node's position and
`index - indexSum` as the local index.  `none` models the walker running off
the chain (the source then dereferences a null pointer).  The local index is
kept as an `Int` because a negative global index stops the walk at the head
with a negative local index. -/
def find_element : List LNode → Int → Option (Nat × Int)
  | [], _ => none
  | n :: rest, index =>
    if (n.count : Int) ≤ index then
      match find_element rest (index - n.count) with
      | some (k, li) => some (k + 1, li)
      | none => none
    else some (0, index)

/-- `Lariat::insert(index, value)`: throws `E_BAD_INDEX` when
`index < 0 || index > size_` (before touching anything); `index == size_`
delegates to `push_back`, `index == 0` to `push_front`; otherwise the location
is resolved and the value is inserted in the owning node — appended at the
node's tail slot and rotated into place when the node has room, through
`insert_in_full_node` when it is full. -/
def insertE (C : Nat) (alloc : Bool) (L : Lariat) (index : Int) (v : Nat) :
    Outcome × Lariat :=
  if index < 0 ∨ (L.size_ : Int) < index then (Outcome.badIndex, L)
  else if index = (L.size_ : Int) then push_backE C alloc L v
  else if index = 0 then push_frontE C alloc L v
  else
    match find_element L.nodes index with
    | none => (Outcome.undef, L)
    | some (k, li0) =>
      -- on this path 0 < index, hence the local index is nonnegative
      let li := li0.toNat
      let n := getN L.nodes k
      if n.count < C then
        let n1 := { n with values := updSlot n.values n.count v, count := n.count + 1 }
        let n2 := shiftUp n1 li
        (Outcome.ok, { L with nodes := setN L.nodes k n2, size_ := L.size_ + 1 })
      else insert_in_full_nodeE C alloc L k li v

/-- `Lariat::deleteNode(node)` with the node at chain position `k`: unlinks
and frees the node (head/tail and neighbour links follow from list adjacency)
and decrements `nodecount_`. -/
def deleteNodeAt (L : Lariat) (k : Nat) : Lariat :=
  { L with nodes := L.nodes.eraseIdx k, nodecount_ := L.nodecount_ - 1 }

/-- `Lariat::pop_front()`: returns at once on an empty container (explicit
`head_ == nullptr` check); otherwise shifts the head's elements down from
slot 0, decrements the counters and deletes the head if it became empty. -/
def pop_frontE (L : Lariat) : Outcome × Lariat :=
  if L.nodes.isEmpty then (Outcome.ok, L)
  else
    let h1 := shiftDown (getN L.nodes 0) 0
    let h2 := { h1 with count := h1.count - 1 }
    let L1 := { L with nodes := setN L.nodes 0 h2, size_ := L.size_ - 1 }
    if h2.count = 0 then (Outcome.ok, deleteNodeAt L1 0) else (Outcome.ok, L1)

/-- `Lariat::pop_back()`: decrements the tail's count and `size_`, deleting
the tail when it becomes empty.  On an empty container the source
dereferences a null `tail_`. -/
def pop_backE (L : Lariat) : Outcome × Lariat :=
  if L.nodes.isEmpty then (Outcome.undef, L)
  else
    let t := L.nodes.length - 1
    let n := getN L.nodes t
    let n1 := { n with count := n.count - 1 }
    let L1 := { L with nodes := setN L.nodes t n1, size_ := L.size_ - 1 }
    if n1.count = 0 then (Outcome.ok, deleteNodeAt L1 t) else (Outcome.ok, L1)

/-- `Lariat::erase(index)`: `index == 0` and `index == size_` dispatch to the
pop fast paths; every other index goes straight to `find_element` and the
in-node shift (there is no range check).  A walk off the chain or a negative
local index (negative `index` on a non-empty container) is undefined
behaviour in the source. -/
def eraseE (L : Lariat) (index : Int) : Outcome × Lariat :=
  if index = 0 then pop_frontE L
  else if index = (L.size_ : Int) then pop_backE L
  else
    match find_element L.nodes index with
    | none => (Outcome.undef, L)
    | some (k, li0) =>
      if li0 < 0 then (Outcome.undef, L)
      else
        let li := li0.toNat
        let n := getN L.nodes k
        let n1 := shiftDown n li
        let n2 := { n1 with count := n1.count - 1 }
        let L1 := { L with nodes := setN L.nodes k n2, size_ := L.size_ - 1 }
        if n2.count = 0 then (Outcome.ok, deleteNodeAt L1 k) else (Outcome.ok, L1)

/-- `Lariat::clear()`: frees every node and resets all fields. -/
def clearL (_L : Lariat) : Lariat :=
  { nodes := [], size_ := 0, nodecount_ := 0 }

/-- A node whose count was set to 0 by `compact` (its storage untouched). -/
def zeroCount (n : LNode) : LNode := { n with count := 0 }

/-- The inner copy loop of `Lariat::compact`: for each of the remaining `cnt`
slots of the source node at position `r` (next slot `i`), copy
`rightFoot->values[i]` into the destination node's next free slot and advance
the destination cursor `l` to the following node whenever it fills.  The
reads go through the current state of the chain, exactly as the source's
pointer reads do. -/
def compactInner (C : Nat) (r : Nat) : List LNode → Nat → Nat → Nat → List LNode × Nat
  | nodes, l, _, 0 => (nodes, l)
  | nodes, l, i, cnt + 1 =>
    let v := (getN nodes r).values i
    let ln := getN nodes l
    let nodes1 := setN nodes l { ln with values := updSlot ln.values ln.count v, count := ln.count + 1 }
    let l1 := if (getN nodes1 l).count = C then l + 1 else l
    compactInner C r nodes1 l1 (i + 1) cnt

/-- The outer loop of `Lariat::compact` (`while (rightFoot != nullptr)`),
with `steps` as fuel (any fuel at least `length - r` runs the loop to
completion): snapshot the source node's count, zero it, step the destination
cursor past a full node, run the inner copy loop, advance the source cursor. -/
def compactOuter (C : Nat) : List LNode → Nat → Nat → Nat → List LNode
  | nodes, _, _, 0 => nodes
  | nodes, l, r, steps + 1 =>
    if r < nodes.length then
      let rc := (getN nodes r).count
      let nodes0 := setN nodes r (zeroCount (getN nodes r))
      let l0 := if (getN nodes0 l).count = C then l + 1 else l
      let p := compactInner C r nodes0 l0 0 rc
      compactOuter C p.1 p.2 (r + 1) steps
    else nodes

/-- The leading loop of `Lariat::compact`: walk both cursors forward while
the destination node is already full and the source cursor (at `l + 1`) is
still on the chain; returns the final destination position. -/
def compactSkip (C : Nat) (nodes : List LNode) : Nat → Nat → Nat
  | l, 0 => l
  | l, fuel + 1 =>
    if (getN nodes l).count = C ∧ l + 1 < nodes.length then compactSkip C nodes (l + 1) fuel
    else l

/-- The trailing cleanup of `Lariat::compact`: delete the tail node while its
count is 0.  (When every node is empty the source would dereference a null
tail after deleting them all; under the container invariant a non-empty chain
holds at least one element, so that situation is unreachable.) -/
def dropTrailingZeros (nodes : List LNode) : List LNode :=
  (nodes.reverse.dropWhile (fun n => n.count = 0)).reverse

/-- `Lariat::compact()`: returns at once on an empty container; otherwise
runs the skip loop, the two-cursor repacking loop, and deletes the emptied
trailing nodes (each deletion decrementing `nodecount_`). -/
def compactL (C : Nat) (L : Lariat) : Lariat :=
  match L.nodes with
  | [] => L
  | _ :: _ =>
    let l0 := compactSkip C L.nodes 0 L.nodes.length
    let nodes1 := compactOuter C L.nodes l0 (l0 + 1) L.nodes.length
    let nodes2 := dropTrailingZeros nodes1
    { L with nodes := nodes2, nodecount_ := L.nodecount_ - (nodes1.length - nodes2.length) }

/-- The elements of the container in traversal order: the live elements of
each node, from head to tail. -/
def traversal (L : Lariat) : List Nat := (L.nodes.map LNode.live).flatten

/-- The total number of live elements reachable by walking the chain. -/
def sumCounts (nodes : List LNode) : Nat := (nodes.map LNode.count).sum

/-- The representation invariant of a well-formed container of capacity `C`:
`size_` equals the number of reachable live elements, `nodecount_` counts the
chain's nodes, no node exceeds the capacity and every node (in particular
every node but the last) holds at least one live element. -/
def LInv (C : Nat) (L : Lariat) : Prop :=
  L.size_ = sumCounts L.nodes ∧
  L.nodecount_ = L.nodes.length ∧
  (∀ n ∈ L.nodes, n.count ≤ C) ∧
  (∀ n ∈ L.nodes, 1 ≤ n.count)

instance (C : Nat) (L : Lariat) : Decidable (LInv C L) := by
  unfold LInv; infer_instance

/-- One public mutating operation of the container. -/
inductive Op where
  | push_back (v : Nat)
  | push_front (v : Nat)
  | insert (i : Int) (v : Nat)
  | erase (i : Int)
  | pop_front
  | pop_back
  | compact
  | clear
deriving DecidableEq

/-- Applying one public operation (allocation succeeding).  `pop_back` is
guarded to non-empty containers: popping an empty container is outside the
valid-input regime (the source dereferences a null tail there). -/
def applyOp (C : Nat) (L : Lariat) : Op → Lariat
  | Op.push_back v => (push_backE C true L v).2
  | Op.push_front v => (push_frontE C true L v).2
  | Op.insert i v => (insertE C true L i v).2
  | Op.erase i => (eraseE L i).2
  | Op.pop_front => (pop_frontE L).2
  | Op.pop_back => if L.nodes.isEmpty then L else (pop_backE L).2
  | Op.compact => compactL C L
  | Op.clear => clearL L

/-- Running a sequence of public operations from the empty container. -/
def runOps (C : Nat) (ops : List Op) : Lariat := ops.foldl (applyOp C) emptyLariat

/-- The traversal of a chain of nodes (the container traversal is this applied
to the container's node list). -/
def trav (ns : List LNode) : List Nat := (ns.map LNode.live).flatten

/-- Invariant of the outer repacking loop of `compact`, relating the current
chain `nodes` (with destination cursor `l` and source cursor `r`) to the
original chain `orig`: the prefix before `l` is full, the destination node is
not full, the nodes strictly between the cursors are emptied, the suffix from
`r` on is untouched, and the chain up to and including the destination node
carries exactly the traversal of the original chain up to `r`. -/
def OuterInv (C : Nat) (orig nodes : List LNode) (l r : Nat) : Prop :=
  nodes.length = orig.length ∧
  l < r ∧ r ≤ orig.length ∧
  (∀ j, j < l → (getN nodes j).count = C) ∧
  (getN nodes l).count < C ∧
  (∀ j, l < j → j < r → (getN nodes j).count = 0) ∧
  (∀ j, r ≤ j → j < orig.length → getN nodes j = getN orig j) ∧
  trav (nodes.take (l + 1)) = trav (orig.take r)

/-- Invariant of the inner copy loop of `compact` while the source node at
position `r` is being drained (next source slot `i`): like `OuterInv`, but
the source node itself is either the zeroed original (while the destination
cursor is still strictly left of it) or partially refilled below the read
position with its slots from `i` on still original, and the placed prefix
carries the original traversal before `r` plus the first `i` source slots. -/
def InnerInv (C : Nat) (orig nodes : List LNode) (r l i : Nat) : Prop :=
  nodes.length = orig.length ∧
  l ≤ r ∧ r < orig.length ∧
  (∀ j, j < l → (getN nodes j).count = C) ∧
  (getN nodes l).count < C ∧
  (∀ j, l < j → j < r → (getN nodes j).count = 0) ∧
  (l < r → getN nodes r = zeroCount (getN orig r)) ∧
  (l = r → (getN nodes r).count < i ∧
    ∀ s, i ≤ s → (getN nodes r).values s = (getN orig r).values s) ∧
  (∀ j, r < j → j < orig.length → getN nodes j = getN orig j) ∧
  trav (nodes.take (l + 1))
    = trav (orig.take r) ++ (List.range i).map (getN orig r).values

/-- Sample container: capacity 4, elements 1,2,3,4 in one full segment, built
by four appends. -/
def exFour : Lariat :=
  runOps 4 [Op.push_back 1, Op.push_back 2, Op.push_back 3, Op.push_back 4]

/-- Sample container: capacity 4, elements 1..7 (two segments), built by seven
appends — the compaction scenario of the specification. -/
def exSeven : Lariat :=
  runOps 4 [Op.push_back 1, Op.push_back 2, Op.push_back 3, Op.push_back 4,
    Op.push_back 5, Op.push_back 6, Op.push_back 7]

/-- Sample container: capacity 4, the single element 5. -/
def exOne : Lariat := runOps 4 [Op.push_back 5]

/-! ### Basic facts about slots, node contents and the chain -/

theorem updSlot_self (vs : Nat → Nat) (i v : Nat) : updSlot vs i v i = v := by
  simp [updSlot]

theorem updSlot_ne (vs : Nat → Nat) (i v k : Nat) (h : k ≠ i) : updSlot vs i v k = vs k := by
  simp [updSlot, h]

theorem length_setN (nodes : List LNode) (k : Nat) (n : LNode) :
    (setN nodes k n).length = nodes.length := by
  simp [setN]

theorem getN_setN_self (nodes : List LNode) (k : Nat) (n : LNode) (h : k < nodes.length) :
    getN (setN nodes k n) k = n := by
  simp [getN, setN, List.getD, List.getElem?_set_self, h]

theorem getN_setN_ne (nodes : List LNode) (k j : Nat) (n : LNode) (h : j ≠ k) :
    getN (setN nodes k n) j = getN nodes j := by
  simp [getN, setN, List.getD, List.getElem?_set_ne (Ne.symm h)]

theorem live_length (n : LNode) : n.live.length = n.count := by
  simp [LNode.live]

theorem live_ext (m : LNode) (f : Nat → Nat) (h : ∀ j, j < m.count → m.values j = f j) :
    m.live = (List.range m.count).map f := by
  exact List.map_congr_left (fun j hj => h j (List.mem_range.mp hj))

theorem range_split (m c : Nat) (h : m ≤ c) :
    List.range c = List.range m ++ List.range' m (c - m) := by
  have h2 := List.range'_append 0 m (c - m) 1
  simp only [Nat.one_mul, Nat.zero_add] at h2
  have hc : c - m + m = c := Nat.sub_add_cancel h
  rw [List.range_eq_range', List.range_eq_range']
  conv_lhs => rw [← hc]
  exact h2.symm

theorem take_range_eq (m c : Nat) (h : m ≤ c) : (List.range c).take m = List.range m := by
  rw [range_split m c h, List.take_left' (List.length_range m)]

theorem drop_range_eq (m c : Nat) (h : m ≤ c) :
    (List.range c).drop m = List.range' m (c - m) := by
  rw [range_split m c h, List.drop_left' (List.length_range m)]

theorem map_range'_pred (f : Nat → Nat) (c : Nat) :
    ∀ s, (List.range' (s + 1) c).map (fun j => f (j - 1)) = (List.range' s c).map f := by
  induction c with
  | zero => intro s; rfl
  | succ c ih =>
    intro s
    rw [List.range'_succ, List.range'_succ]
    simp only [List.map_cons, Nat.add_sub_cancel]
    rw [ih (s + 1)]

theorem live_take (n : LNode) (m : Nat) (h : m ≤ n.count) :
    n.live.take m = (List.range m).map n.values := by
  unfold LNode.live
  rw [← List.map_take, take_range_eq m n.count h]

theorem live_drop (n : LNode) (m : Nat) (h : m ≤ n.count) :
    n.live.drop m = (List.range' m (n.count - m)).map n.values := by
  unfold LNode.live
  rw [← List.map_drop, drop_range_eq m n.count h]

/-! ### The effect of the two shift loops on a node's contents -/

theorem swapWith_fst (vs : Nat → Nat) (li i : Nat) : swapWith vs li i li = vs i := by
  simp [swapWith]

theorem shiftUpGo_spec (c : Nat) :
    ∀ (vs : Nat → Nat) (s li : Nat), li < s → ∀ j,
      shiftUpGo vs li (List.range' s c) j =
        if j = li then (if c = 0 then vs li else vs (s + c - 1))
        else if s ≤ j ∧ j < s + c then (if j = s then vs li else vs (j - 1))
        else vs j := by
  induction c with
  | zero =>
    intro vs s li _ j
    show vs j = _
    by_cases hj : j = li
    · simp [hj]
    · have h2 : ¬(s ≤ j ∧ j < s + 0) := by omega
      simp only [if_neg hj, if_neg h2]
  | succ c ih =>
    intro vs s li hls j
    have hr : List.range' s (c + 1) = s :: List.range' (s + 1) c := List.range'_succ s c 1
    rw [hr]
    show shiftUpGo (swapWith vs li s) li (List.range' (s + 1) c) j = _
    rw [ih (swapWith vs li s) (s + 1) li (by omega) j]
    simp only [swapWith]
    split_ifs <;> first | rfl | contradiction | omega | (congr 1 <;> omega)

theorem shiftDownGo_spec (c : Nat) :
    ∀ (vs : Nat → Nat) (s j : Nat),
      shiftDownGo vs (List.range' s c) j =
        if s ≤ j ∧ j < s + c then vs (j + 1) else vs j := by
  induction c with
  | zero =>
    intro vs s j
    show vs j = _
    have h2 : ¬(s ≤ j ∧ j < s + 0) := by omega
    rw [if_neg h2]
  | succ c ih =>
    intro vs s j
    rw [List.range'_succ]
    show shiftDownGo (updSlot vs s (vs (s + 1))) (List.range' (s + 1) c) j = _
    rw [ih (updSlot vs s (vs (s + 1))) (s + 1) j]
    simp only [updSlot]
    split_ifs <;> first | rfl | contradiction | omega | (congr 1 <;> omega)

theorem shiftDown_values (n : LNode) (li j : Nat) :
    (shiftDown n li).values j =
      if li ≤ j ∧ j < n.count then n.values (j + 1) else n.values j := by
  show shiftDownGo n.values (List.range' li (n.count - li)) j = _
  rw [shiftDownGo_spec (n.count - li) n.values li j]
  have hiff : (li ≤ j ∧ j < li + (n.count - li)) ↔ (li ≤ j ∧ j < n.count) := by omega
  by_cases h : li ≤ j ∧ j < n.count
  · rw [if_pos (hiff.mpr h), if_pos h]
  · rw [if_neg (fun hc => h (hiff.mp hc)), if_neg h]

theorem shiftDown_count (n : LNode) (li : Nat) : (shiftDown n li).count = n.count := rfl

theorem shiftUp_count (n : LNode) (li : Nat) : (shiftUp n li).count = n.count := rfl

theorem shiftUp_values (n : LNode) (li j : Nat) (hli : li < n.count) :
    (shiftUp n li).values j =
      if j = li then n.values (n.count - 1)
      else if li < j ∧ j < n.count then n.values (j - 1)
      else n.values j := by
  show shiftUpGo n.values li (List.range' (li + 1) (n.count - (li + 1))) j = _
  rw [shiftUpGo_spec (n.count - (li + 1)) n.values (li + 1) li (by omega) j]
  by_cases hj : j = li
  · rw [if_pos hj, if_pos hj]
    by_cases hc : n.count - (li + 1) = 0
    · rw [if_pos hc]; congr 1; omega
    · rw [if_neg hc]; congr 1; omega
  · rw [if_neg hj, if_neg hj]
    by_cases h2 : li < j ∧ j < n.count
    · have h3 : li + 1 ≤ j ∧ j < li + 1 + (n.count - (li + 1)) := by omega
      rw [if_pos h3, if_pos h2]
      by_cases h4 : j = li + 1
      · rw [if_pos h4]; congr 1; omega
      · rw [if_neg h4]
    · have h3 : ¬(li + 1 ≤ j ∧ j < li + 1 + (n.count - (li + 1))) := by omega
      rw [if_neg h3, if_neg h2]

theorem shiftUp_at_li (n : LNode) (li : Nat) (h : li < n.count) :
    (shiftUp n li).values li = n.values (n.count - 1) := by
  rw [shiftUp_values n li li h, if_pos rfl]

/-! ### The live contents of a node after the in-node operations -/

theorem live_snoc (n : LNode) (v : Nat) :
    ({ n with values := updSlot n.values n.count v, count := n.count + 1 } : LNode).live
      = n.live ++ [v] := by
  show (List.range (n.count + 1)).map (updSlot n.values n.count v) = _
  rw [List.range_succ, List.map_append]
  congr 1
  · exact List.map_congr_left
      (fun j hj => updSlot_ne _ _ _ _ (by have := List.mem_range.mp hj; omega))
  · simp [updSlot]

theorem insertIdx_split (v : Nat) : ∀ (li : Nat) (l : List Nat), li ≤ l.length →
    l.insertIdx li v = l.take li ++ v :: l.drop li := by
  intro li
  induction li with
  | zero => intro l _; rfl
  | succ li ih =>
    intro l hl
    match l with
    | [] => simp at hl
    | x :: xs =>
      rw [List.insertIdx_succ_cons]
      show x :: xs.insertIdx li v = x :: (xs.take li ++ v :: xs.drop li)
      rw [ih xs (by simpa using hl)]

theorem insert_in_node_live (n : LNode) (v li : Nat) (h : li ≤ n.count) :
    (shiftUp { n with values := updSlot n.values n.count v, count := n.count + 1 } li).live
      = n.live.take li ++ v :: n.live.drop li := by
  have hcount : (shiftUp { n with values := updSlot n.values n.count v, count := n.count + 1 } li).count
      = n.count + 1 := rfl
  have hvals : ∀ j, j < n.count + 1 →
      (shiftUp { n with values := updSlot n.values n.count v, count := n.count + 1 } li).values j
        = (fun j => if j = li then v else if j < li then n.values j else n.values (j - 1)) j := by
    intro j hj
    rw [shiftUp_values _ li j (by show li < n.count + 1; omega)]
    show _ = if j = li then v else if j < li then n.values j else n.values (j - 1)
    by_cases hjli : j = li
    · rw [if_pos hjli, if_pos hjli]
      show updSlot n.values n.count v (n.count + 1 - 1) = v
      rw [Nat.add_sub_cancel, updSlot_self]
    · rw [if_neg hjli, if_neg hjli]
      by_cases h2 : j < li
      · have h3 : ¬(li < j ∧ j < n.count + 1) := by omega
        rw [if_neg h3, if_pos h2]
        exact updSlot_ne _ _ _ _ (by omega)
      · have h3 : li < j ∧ j < n.count + 1 := by omega
        rw [if_pos h3, if_neg h2]
        exact updSlot_ne _ _ _ _ (by omega)
  rw [live_ext _ _ (by rw [hcount]; exact hvals)]
  rw [hcount]
  have hsplit : List.range (n.count + 1)
      = List.range li ++ li :: List.range' (li + 1) (n.count - li) := by
    rw [range_split li (n.count + 1) (by omega)]
    congr 1
    have : n.count + 1 - li = (n.count - li) + 1 := by omega
    rw [this, List.range'_succ]
  rw [hsplit, List.map_append, List.map_cons]
  congr 1
  · rw [live_take n li h]
    exact List.map_congr_left
      (fun j hj => by
        have hjlt := List.mem_range.mp hj
        show (if j = li then v else if j < li then n.values j else n.values (j - 1)) = n.values j
        rw [if_neg (by omega), if_pos hjlt])
  · congr 1
    · show (if li = li then v else _) = v
      rw [if_pos rfl]
    · rw [live_drop n li h, ← map_range'_pred n.values (n.count - li) li]
      exact List.map_congr_left
        (fun j hj => by
          have hjb := List.mem_range'_1.mp hj
          show (if j = li then v else if j < li then n.values j else n.values (j - 1))
            = n.values (j - 1)
          rw [if_neg (by omega), if_neg (by omega)])

theorem full_overwrite_live (n : LNode) (v li : Nat) (h : li < n.count) :
    ({ shiftUp n li with values := updSlot (shiftUp n li).values li v } : LNode).live
      = n.live.take li ++ v :: (n.live.take (n.count - 1)).drop li := by
  have hvals : ∀ j, j < n.count →
      ({ shiftUp n li with values := updSlot (shiftUp n li).values li v } : LNode).values j
        = (fun j => if j = li then v else if j < li then n.values j else n.values (j - 1)) j := by
    intro j hj
    show updSlot (shiftUp n li).values li v j = _
    by_cases hjli : j = li
    · rw [hjli, updSlot_self]
      show v = if li = li then v else _
      rw [if_pos rfl]
    · rw [updSlot_ne _ _ _ _ hjli, shiftUp_values n li j h]
      show _ = if j = li then v else if j < li then n.values j else n.values (j - 1)
      rw [if_neg hjli, if_neg hjli]
      by_cases h2 : j < li
      · rw [if_neg (by omega : ¬(li < j ∧ j < n.count)), if_pos h2]
      · rw [if_pos (by omega : li < j ∧ j < n.count), if_neg h2]
  rw [live_ext _ _ hvals]
  show (List.range n.count).map _ = _
  have hsplit : List.range n.count
      = List.range li ++ li :: List.range' (li + 1) (n.count - 1 - li) := by
    rw [range_split li n.count (by omega)]
    congr 1
    obtain ⟨d, hd⟩ : ∃ d, n.count - li = d + 1 := ⟨n.count - 1 - li, by omega⟩
    rw [hd, List.range'_succ]
    rw [show d = n.count - 1 - li from by omega]
  rw [hsplit, List.map_append, List.map_cons]
  congr 1
  · rw [live_take n li (by omega)]
    exact List.map_congr_left
      (fun j hj => by
        have hjlt := List.mem_range.mp hj
        show (if j = li then v else if j < li then n.values j else n.values (j - 1)) = n.values j
        rw [if_neg (by omega), if_pos hjlt])
  · congr 1
    · show (if li = li then v else _) = v
      rw [if_pos rfl]
    · have htk : n.live.take (n.count - 1) = (List.range (n.count - 1)).map n.values :=
        live_take n (n.count - 1) (by omega)
      rw [htk, ← List.map_drop, drop_range_eq li (n.count - 1) (by omega)]
      rw [← map_range'_pred n.values (n.count - 1 - li) li]
      exact List.map_congr_left
        (fun j hj => by
          have hjb := List.mem_range'_1.mp hj
          show (if j = li then v else if j < li then n.values j else n.values (j - 1))
            = n.values (j - 1)
          rw [if_neg (by omega), if_neg (by omega)])

/-! ### Decomposing the chain and the traversal -/

theorem nodes_decomp (ns : List LNode) (k : Nat) (h : k < ns.length) :
    ns = ns.take k ++ getN ns k :: ns.drop (k + 1) := by
  conv_lhs => rw [← List.take_append_drop k ns]
  congr 1
  rw [List.drop_eq_getElem_cons h]
  show _ :: _ = _ :: _
  congr 1
  simp [getN, List.getD, List.getElem?_eq_getElem h]

theorem setN_decomp (ns : List LNode) (k : Nat) (n : LNode) (h : k < ns.length) :
    setN ns k n = ns.take k ++ n :: ns.drop (k + 1) :=
  List.set_eq_take_cons_drop n h

theorem sumCounts_append (a b : List LNode) : sumCounts (a ++ b) = sumCounts a + sumCounts b := by
  simp [sumCounts]

theorem sumCounts_cons (n : LNode) (b : List LNode) :
    sumCounts (n :: b) = n.count + sumCounts b := by
  simp [sumCounts]

theorem traversal_eq_trav (L : Lariat) : traversal L = trav L.nodes := rfl

theorem trav_append (a b : List LNode) : trav (a ++ b) = trav a ++ trav b := by
  simp [trav]

theorem trav_cons (n : LNode) (b : List LNode) : trav (n :: b) = n.live ++ trav b := by
  simp [trav]

theorem trav_length (ns : List LNode) : (trav ns).length = sumCounts ns := by
  induction ns with
  | nil => rfl
  | cons n rest ih =>
    rw [trav_cons, sumCounts_cons, List.length_append, live_length, ih]

theorem trav_decomp (ns : List LNode) (k : Nat) (h : k < ns.length) :
    trav ns = trav (ns.take k) ++ (getN ns k).live ++ trav (ns.drop (k + 1)) := by
  conv_lhs => rw [nodes_decomp ns k h]
  rw [trav_append, trav_cons, List.append_assoc]

theorem trav_setN (ns : List LNode) (k : Nat) (n : LNode) (h : k < ns.length) :
    trav (setN ns k n) = trav (ns.take k) ++ n.live ++ trav (ns.drop (k + 1)) := by
  rw [setN_decomp ns k n h, trav_append, trav_cons, List.append_assoc]

/-! ### The effect of split on a node -/

theorem numSplitOf_le (c : Nat) : numSplitOf c ≤ c := by
  unfold numSplitOf
  have := Nat.div_le_self c 2
  omega

theorem splitKeep_live (n : LNode) :
    (splitKeep n).live = n.live.take (n.count - numSplitOf n.count) := by
  have h : n.count - numSplitOf n.count ≤ n.count := Nat.sub_le _ _
  rw [live_take n _ h]
  rfl

theorem splitNew_live (n : LNode) :
    (splitNew n).live = n.live.drop (n.count - numSplitOf n.count) := by
  have hle : numSplitOf n.count ≤ n.count := numSplitOf_le n.count
  have h : n.count - numSplitOf n.count ≤ n.count := Nat.sub_le _ _
  rw [live_drop n _ h]
  show (List.range (numSplitOf n.count)).map
      (splitVals n.values (n.count - numSplitOf n.count) (numSplitOf n.count)) = _
  have hc : n.count - (n.count - numSplitOf n.count) = numSplitOf n.count := by omega
  rw [hc]
  have h1 : ∀ j ∈ List.range (numSplitOf n.count),
      splitVals n.values (n.count - numSplitOf n.count) (numSplitOf n.count) j
        = (fun j => n.values (n.count - numSplitOf n.count + j)) j := by
    intro j hj
    have := List.mem_range.mp hj
    simp [splitVals, this]
  rw [List.map_congr_left h1]
  have h2 : List.range' (n.count - numSplitOf n.count) (numSplitOf n.count)
      = (List.range' 0 (numSplitOf n.count)).map
          (fun j => n.count - numSplitOf n.count + j) := by
    have h3 := List.map_add_range' (n.count - numSplitOf n.count) 0 (numSplitOf n.count) 1
    rw [Nat.add_zero] at h3
    exact h3.symm
  rw [h2, ← List.range_eq_range', List.map_map]
  rfl

theorem split_live_parts (n : LNode) :
    (splitKeep n).live ++ (splitNew n).live = n.live := by
  rw [splitKeep_live, splitNew_live, List.take_append_drop]

theorem getN_take (ns : List LNode) (k j : Nat) (h : j < k) :
    getN (ns.take k) j = getN ns j := by
  simp [getN, List.getD, List.getElem?_take_of_lt h]

theorem getN_drop (ns : List LNode) (m j : Nat) : getN (ns.drop m) j = getN ns (m + j) := by
  simp [getN, List.getD, List.getElem?_drop]

theorem getN_cons_succ (n : LNode) (rest : List LNode) (j : Nat) :
    getN (n :: rest) (j + 1) = getN rest j := rfl

theorem getN_cons_zero (n : LNode) (rest : List LNode) : getN (n :: rest) 0 = n := rfl

/-- Claim C8: for every full segment (count = C), split moves
`count / 2` elements (minus one extra kept in the first segment when the
count is even) to a new second segment; the moved elements keep their
relative order, the new segment sits immediately after the original
(position k + 1, every other node untouched), the whole traversal is
preserved, and when the original was the tail the new node is the last of
the chain. -/
theorem split_full_segment (C : Nat) (L : Lariat) (k : Nat)
    (hk : k < L.nodes.length) (hfull : (getN L.nodes k).count = C) :
    (splitE true L k).1 = Outcome.ok ∧
    (splitE true L k).2.2 = k + 1 ∧
    (splitE true L k).2.1.nodes.length = L.nodes.length + 1 ∧
    (getN (splitE true L k).2.1.nodes (k + 1)).count
      = C / 2 - (if C % 2 = 0 then 1 else 0) ∧
    (getN (splitE true L k).2.1.nodes (k + 1)).live
      = (getN L.nodes k).live.drop (C - numSplitOf C) ∧
    (getN (splitE true L k).2.1.nodes k).live
        ++ (getN (splitE true L k).2.1.nodes (k + 1)).live
      = (getN L.nodes k).live ∧
    (∀ j, j < k → getN (splitE true L k).2.1.nodes j = getN L.nodes j) ∧
    (∀ j, k + 1 < j → j ≤ L.nodes.length →
      getN (splitE true L k).2.1.nodes j = getN L.nodes (j - 1)) ∧
    traversal (splitE true L k).2.1 = traversal L ∧
    (k = L.nodes.length - 1 →
      (splitE true L k).2.2 = (splitE true L k).2.1.nodes.length - 1) := by
  have htk : (L.nodes.take k).length = k := by
    rw [List.length_take]; omega
  have hnodes : (splitE true L k).2.1.nodes
      = L.nodes.take k ++ [splitKeep (getN L.nodes k), splitNew (getN L.nodes k)]
          ++ L.nodes.drop (k + 1) := rfl
  have hlen : (splitE true L k).2.1.nodes.length = L.nodes.length + 1 := by
    rw [hnodes]
    simp only [List.length_append, List.length_cons, List.length_nil, List.length_drop, htk]
    omega
  have hgetk : getN (splitE true L k).2.1.nodes k = splitKeep (getN L.nodes k) := by
    rw [hnodes, List.append_assoc, getN, List.getD_append_right _ _ _ _ (by omega)]
    rw [htk, Nat.sub_self]
    rfl
  have hgetk1 : getN (splitE true L k).2.1.nodes (k + 1) = splitNew (getN L.nodes k) := by
    rw [hnodes, List.append_assoc, getN, List.getD_append_right _ _ _ _ (by omega)]
    rw [htk, Nat.add_sub_cancel_left]
    rfl
  refine ⟨rfl, rfl, hlen, ?_, ?_, ?_, ?_, ?_, ?_, ?_⟩
  · rw [hgetk1, splitNew, hfull]
    rfl
  · rw [hgetk1, splitNew_live, hfull]
  · rw [hgetk, hgetk1, split_live_parts]
  · intro j hj
    rw [hnodes, List.append_assoc, getN, List.getD_append _ _ _ _ (by omega)]
    exact getN_take L.nodes k j hj
  · intro j hj1 hj2
    rw [hnodes, List.append_assoc, getN, List.getD_append_right _ _ _ _ (by omega)]
    have h2 : j - (L.nodes.take k).length = (j - k - 2) + 1 + 1 := by rw [htk]; omega
    rw [h2]
    show getN (L.nodes.drop (k + 1)) (j - k - 2) = getN L.nodes (j - 1)
    rw [getN_drop]
    congr 1
    omega
  · rw [traversal_eq_trav, traversal_eq_trav, hnodes, List.append_assoc]
    rw [List.cons_append, List.cons_append, List.nil_append, trav_append, trav_cons, trav_cons]
    rw [show (splitKeep (getN L.nodes k)).live
          ++ ((splitNew (getN L.nodes k)).live ++ trav (L.nodes.drop (k + 1)))
        = (getN L.nodes k).live ++ trav (L.nodes.drop (k + 1)) from by
      rw [← split_live_parts (getN L.nodes k), List.append_assoc]]
    rw [← List.append_assoc]
    exact (trav_decomp L.nodes k hk).symm
  · intro hktail
    rw [hlen]
    show k + 1 = L.nodes.length + 1 - 1
    omega

theorem split_full_segment_witness :
    traversal (splitE true exFour 0).2.1 = traversal exFour ∧
    (getN (splitE true exFour 0).2.1.nodes 1).count
      = 4 / 2 - (if 4 % 2 = 0 then 1 else 0) :=
  ⟨(split_full_segment 4 exFour 0 (by decide) (by decide)).2.2.2.2.2.2.2.2.1,
   (split_full_segment 4 exFour 0 (by decide) (by decide)).2.2.2.1⟩

/-- Claim C10: calling pop_front on the empty container returns without fault
(the source checks the null head explicitly) and leaves the container
unchanged — head and tail stay null and `size_` stays as it was. -/
theorem pop_front_empty_noop (L : Lariat) (h : L.nodes = []) :
    pop_frontE L = (Outcome.ok, L) := by
  unfold pop_frontE
  rw [h]
  rfl

theorem pop_front_empty_noop_witness : pop_frontE emptyLariat = (Outcome.ok, emptyLariat) :=
  pop_front_empty_noop emptyLariat rfl

/-- Claim C5 (the code violates it): on the general erase path with a full
capacity-4 segment (count = 4) and localIndex = 2, the shiftDown loop reads
slot 4 = count — outside the claimed read range [localIndex+1, count) and
past the end of the value array — and writes slot 3 = count - 1, outside the
claimed write range [localIndex, count-1). -/
theorem shiftDown_reads_past_live :
    4 ∈ shiftDownReads 2 4 ∧ ¬(4 < 4) ∧ 3 ∈ shiftDownWrites 2 4 ∧ ¬(3 < 4 - 1) := by
  decide

/-! ### Locating a global index in the chain -/

theorem find_element_none (nodes : List LNode) : ∀ index : Int,
    (sumCounts nodes : Int) ≤ index → find_element nodes index = none := by
  induction nodes with
  | nil => intro index _; rfl
  | cons n rest ih =>
    intro index h
    rw [sumCounts_cons] at h
    push_cast at h
    show (if (n.count : Int) ≤ index then _ else _) = none
    rw [if_pos (by omega)]
    rw [ih (index - n.count) (by omega)]

theorem find_element_neg (n : LNode) (rest : List LNode) (index : Int) (h : index < 0) :
    find_element (n :: rest) index = some (0, index) := by
  show (if (n.count : Int) ≤ index then _ else _) = _
  rw [if_neg (by omega)]

theorem find_element_spec (nodes : List LNode) : ∀ idx : Nat,
    idx < sumCounts nodes →
    ∃ k li : Nat, find_element nodes (idx : Int) = some (k, (li : Int)) ∧
      k < nodes.length ∧ li < (getN nodes k).count ∧
      sumCounts (nodes.take k) + li = idx := by
  induction nodes with
  | nil => intro idx h; simp [sumCounts] at h
  | cons n rest ih =>
    intro idx h
    rw [sumCounts_cons] at h
    by_cases hc : idx < n.count
    · refine ⟨0, idx, ?_, by simp, hc, by simp [sumCounts]⟩
      show (if (n.count : Int) ≤ (idx : Int) then _ else _) = _
      rw [if_neg (by omega)]
    · obtain ⟨k, li, h1, h2, h3, h4⟩ := ih (idx - n.count) (by omega)
      refine ⟨k + 1, li, ?_, by simpa using h2, ?_, ?_⟩
      · show (if (n.count : Int) ≤ (idx : Int) then _ else _) = _
        rw [if_pos (by omega)]
        have hcast : (idx : Int) - (n.count : Int) = ((idx - n.count : Nat) : Int) := by
          omega
        rw [hcast, h1]
      · rw [getN_cons_succ]
        exact h3
      · show sumCounts (n :: rest.take k) + li = idx
        rw [sumCounts_cons]
        omega

/-! ### Which outcomes each path can produce -/

theorem push_first_valueE_not_badIndex (alloc : Bool) (L : Lariat) (v : Nat) :
    (push_first_valueE alloc L v).1 ≠ Outcome.badIndex := by
  cases alloc <;> simp [push_first_valueE]

theorem splitE_not_badIndex (alloc : Bool) (L : Lariat) (k : Nat) :
    (splitE alloc L k).1 ≠ Outcome.badIndex := by
  cases alloc <;> simp [splitE]

theorem push_back_in_nodeE_not_badIndex (C : Nat) (alloc : Bool) (L : Lariat) (k v : Nat) :
    (push_back_in_nodeE C alloc L k v).1 ≠ Outcome.badIndex := by
  cases alloc <;> by_cases h : C ≤ (getN L.nodes k).count <;>
    simp [push_back_in_nodeE, splitE, h]

theorem insert_in_full_nodeE_not_badIndex (C : Nat) (alloc : Bool) (L : Lariat)
    (k li v : Nat) : (insert_in_full_nodeE C alloc L k li v).1 ≠ Outcome.badIndex := by
  cases alloc with
  | false => simp [insert_in_full_nodeE, splitE]
  | true =>
    show (push_back_in_nodeE C true _ _ _).1 ≠ _
    exact push_back_in_nodeE_not_badIndex C true _ _ _

theorem push_backE_not_badIndex (C : Nat) (alloc : Bool) (L : Lariat) (v : Nat) :
    (push_backE C alloc L v).1 ≠ Outcome.badIndex := by
  unfold push_backE
  by_cases he : L.nodes.isEmpty
  · rw [if_pos he]
    exact push_first_valueE_not_badIndex alloc L v
  · rw [if_neg he]
    by_cases hf : (getN L.nodes (L.nodes.length - 1)).count = C
    · rw [if_pos hf]
      cases alloc with
      | false => simp [splitE]
      | true =>
        show (push_back_in_nodeE C true _ _ _).1 ≠ _
        exact push_back_in_nodeE_not_badIndex C true _ _ v
    · rw [if_neg hf]
      exact push_back_in_nodeE_not_badIndex C alloc _ _ v

theorem push_frontE_not_badIndex (C : Nat) (alloc : Bool) (L : Lariat) (v : Nat) :
    (push_frontE C alloc L v).1 ≠ Outcome.badIndex := by
  unfold push_frontE
  by_cases he : L.nodes.isEmpty
  · rw [if_pos he]
    exact push_first_valueE_not_badIndex alloc L v
  · rw [if_neg he]
    by_cases hf : (getN L.nodes 0).count = C
    · rw [if_pos hf]
      cases alloc with
      | false => simp [splitE]
      | true =>
        show (push_back_in_nodeE C true _ _ _).1 ≠ _
        exact push_back_in_nodeE_not_badIndex C true _ _ _
    · rw [if_neg hf]
      simp

/-- Claim C7: insert(index, value) fails with the out-of-range condition
(E_BAD_INDEX) exactly when index < 0 or index > size_, and in that case the
container is returned unmodified (the bounds check precedes every mutation). -/
theorem insert_bad_index_iff (C : Nat) (alloc : Bool) (L : Lariat) (index : Int) (v : Nat) :
    ((insertE C alloc L index v).1 = Outcome.badIndex
        ↔ (index < 0 ∨ (L.size_ : Int) < index)) ∧
    ((index < 0 ∨ (L.size_ : Int) < index) → (insertE C alloc L index v).2 = L) := by
  refine ⟨⟨?_, ?_⟩, ?_⟩
  · intro h
    by_cases hr : index < 0 ∨ (L.size_ : Int) < index
    · exact hr
    · exfalso
      unfold insertE at h
      rw [if_neg hr] at h
      by_cases h1 : index = (L.size_ : Int)
      · rw [if_pos h1] at h
        exact push_backE_not_badIndex C alloc L v h
      · rw [if_neg h1] at h
        by_cases h2 : index = 0
        · rw [if_pos h2] at h
          exact push_frontE_not_badIndex C alloc L v h
        · rw [if_neg h2] at h
          split at h
          · simp at h
          · dsimp only at h
            split at h
            · simp at h
            · exact insert_in_full_nodeE_not_badIndex C alloc L _ _ v h
  · intro h
    unfold insertE
    rw [if_pos h]
  · intro h
    unfold insertE
    rw [if_pos h]

theorem insert_bad_index_iff_witness :
    (((insertE 4 true exOne (-1) 7).1 = Outcome.badIndex
        ↔ ((-1 : Int) < 0 ∨ (exOne.size_ : Int) < -1)) ∧
      (((-1 : Int) < 0 ∨ (exOne.size_ : Int) < -1) → (insertE 4 true exOne (-1) 7).2 = exOne)) :=
  insert_bad_index_iff 4 true exOne (-1) 7

/-! ### What the failing-allocation paths do to the state -/

theorem map_count_setN (ns : List LNode) : ∀ (k : Nat) (n : LNode),
    n.count = (getN ns k).count →
    (setN ns k n).map LNode.count = ns.map LNode.count := by
  induction ns with
  | nil => intro k n _; rfl
  | cons a rest ih =>
    intro k n h
    cases k with
    | zero =>
      have h0 : n.count = a.count := h
      show (n :: rest).map LNode.count = (a :: rest).map LNode.count
      simp only [List.map_cons]
      rw [h0]
    | succ k =>
      show (a :: setN rest k n).map LNode.count = (a :: rest).map LNode.count
      simp only [List.map_cons]
      rw [ih k n h]

theorem insertE_full_fail (C : Nat) (L : Lariat) (index : Int) (v : Nat) (k : Nat) (li0 : Int)
    (hr : ¬(index < 0 ∨ (L.size_ : Int) < index))
    (h1 : index ≠ (L.size_ : Int)) (h2 : index ≠ 0)
    (hfind : find_element L.nodes index = some (k, li0))
    (h3 : ¬((getN L.nodes k).count < C)) :
    insertE C false L index v
      = (Outcome.oom,
         { nodes :=
             setN L.nodes k
               { count := (getN L.nodes k).count
                 values := updSlot (shiftUp (getN L.nodes k) li0.toNat).values li0.toNat v }
           size_ := L.size_
           nodecount_ := L.nodecount_ }) := by
  unfold insertE
  rw [if_neg hr, if_neg h1, if_neg h2, hfind]
  dsimp only
  rw [if_neg h3]
  rfl

/-- Claim C4 counterexample: inserting 9 at index 2 of the full capacity-4
segment [1,2,3,4] with the segment allocation failing raises out-of-memory,
but the container does not remain in its previous state: its traversal
becomes [1,2,9,3] — the rotation and the overwrite of slot 2 happen before
split attempts the allocation, and the displaced element 4 is lost. -/
theorem insert_alloc_fail_mutates :
    (insertE 4 false exFour 2 9).1 = Outcome.oom ∧
    traversal (insertE 4 false exFour 2 9).2 ≠ traversal exFour ∧
    traversal (insertE 4 false exFour 2 9).2 = [1, 2, 9, 3] ∧
    traversal exFour = [1, 2, 3, 4] := by decide

/-- Claim C4 amended: when creating a new segment fails, the out-of-memory
condition is raised; split itself, the first-insertion path and the full-tail
append path mutate nothing before the allocation, and on the full-segment
insert path size_, nodecount_ and every segment count are still unchanged —
but the located segment's elements have already been rotated and the slot at
localIndex overwritten when split's allocation fails, so the element values
are not preserved there. -/
theorem alloc_failure_amended (C : Nat) (L : Lariat) (v : Nat) (index : Int) :
    (∀ k, splitE false L k = (Outcome.oom, L, k)) ∧
    (L.nodes = [] → push_backE C false L v = (Outcome.oom, L)) ∧
    (L.nodes ≠ [] → (getN L.nodes (L.nodes.length - 1)).count = C →
      push_backE C false L v = (Outcome.oom, L)) ∧
    (∀ k li0, find_element L.nodes index = some (k, li0) →
      ¬(index < 0 ∨ (L.size_ : Int) < index) →
      index ≠ (L.size_ : Int) → index ≠ 0 →
      ¬((getN L.nodes k).count < C) →
      (insertE C false L index v).1 = Outcome.oom ∧
      (insertE C false L index v).2.size_ = L.size_ ∧
      (insertE C false L index v).2.nodecount_ = L.nodecount_ ∧
      (insertE C false L index v).2.nodes.map LNode.count = L.nodes.map LNode.count) := by
  refine ⟨fun k => rfl, ?_, ?_, ?_⟩
  · intro h
    unfold push_backE
    rw [h]
    rfl
  · intro hne hf
    unfold push_backE
    have he : ¬(L.nodes.isEmpty = true) := by
      intro hh
      exact hne (List.isEmpty_iff.mp hh)
    rw [if_neg he, if_pos hf]
    rfl
  · intro k li0 hfind hr h1 h2 h3
    rw [insertE_full_fail C L index v k li0 hr h1 h2 hfind h3]
    exact ⟨rfl, rfl, rfl, map_count_setN L.nodes k _ rfl⟩

theorem alloc_failure_amended_witness :
    (insertE 4 false exFour 2 9).1 = Outcome.oom ∧
    (insertE 4 false exFour 2 9).2.size_ = exFour.size_ ∧
    (insertE 4 false exFour 2 9).2.nodecount_ = exFour.nodecount_ ∧
    (insertE 4 false exFour 2 9).2.nodes.map LNode.count = exFour.nodes.map LNode.count :=
  (alloc_failure_amended 4 exFour 9 2).2.2.2 0 2
    (by decide) (by decide) (by decide) (by decide) (by decide)

/-- Claim C6 counterexample: erasing index 3 from a container of size 1
(neither 0 nor size) does not raise the out-of-range condition — the location
walk runs off the chain (undefined behaviour), no exception is thrown. -/
theorem erase_no_range_check :
    (eraseE exOne 3).1 = Outcome.undef ∧ (eraseE exOne 3).1 ≠ Outcome.badIndex := by
  decide

/-- Claim C6 amended: erase performs no bounds check.  Indices 0 and size_
dispatch to the pop fast paths; for every other index outside [0, size] the
element walk runs off the chain (or produces a negative local offset) and the
behaviour is undefined — no out-of-range condition is raised and nothing has
been written to the container when that happens. -/
theorem erase_out_of_range_undef (L : Lariat) (index : Int)
    (hsz : L.size_ = sumCounts L.nodes)
    (h0 : index ≠ 0) (hs : index ≠ (L.size_ : Int))
    (hout : index < 0 ∨ (L.size_ : Int) < index) :
    (eraseE L index).1 = Outcome.undef ∧ (eraseE L index).2 = L := by
  unfold eraseE
  rw [if_neg h0, if_neg hs]
  rcases hout with hneg | hbig
  · cases hn : L.nodes with
    | nil => exact ⟨rfl, rfl⟩
    | cons a rest =>
      rw [find_element_neg a rest index hneg]
      dsimp only
      rw [if_pos hneg]
      exact ⟨rfl, rfl⟩
  · rw [find_element_none L.nodes index (by rw [← hsz]; omega)]
    exact ⟨rfl, rfl⟩

theorem erase_out_of_range_undef_witness :
    (eraseE exOne 3).1 = Outcome.undef ∧ (eraseE exOne 3).2 = exOne :=
  erase_out_of_range_undef exOne 3 (by decide) (by decide) (by decide) (by decide)

/-! ### The traversal after a middle insert -/

theorem take_setN (ns : List LNode) (k : Nat) (n : LNode) (h : k < ns.length) :
    (setN ns k n).take k = ns.take k := by
  rw [setN_decomp ns k n h]
  rw [List.take_append_of_le_length (by rw [List.length_take]; omega)]
  rw [List.take_take, Nat.min_self]

theorem drop_setN (ns : List LNode) (k : Nat) (n : LNode) (h : k < ns.length) :
    (setN ns k n).drop (k + 1) = ns.drop (k + 1) := by
  rw [setN_decomp ns k n h]
  rw [show ns.take k ++ n :: ns.drop (k + 1) = (ns.take k ++ [n]) ++ ns.drop (k + 1) from
    (List.append_assoc (ns.take k) [n] (ns.drop (k + 1))).symm]
  rw [List.drop_left' (by simp [List.length_take]; omega)]

theorem insertIdx_append_middle (pre mid post : List Nat) (li v : Nat) (h : li ≤ mid.length) :
    (pre ++ (mid ++ post)).insertIdx (pre.length + li) v
      = pre ++ ((mid.take li ++ v :: mid.drop li) ++ post) := by
  rw [insertIdx_split v (pre.length + li) (pre ++ (mid ++ post)) (by simp; omega)]
  rw [List.take_append, List.drop_append]
  rw [List.take_append_of_le_length h, List.drop_append_of_le_length h]
  simp [List.append_assoc]

theorem insertE_spare (C : Nat) (alloc : Bool) (L : Lariat) (index : Int) (v : Nat)
    (k : Nat) (li0 : Int)
    (hr : ¬(index < 0 ∨ (L.size_ : Int) < index))
    (h1 : index ≠ (L.size_ : Int)) (h2 : index ≠ 0)
    (hfind : find_element L.nodes index = some (k, li0))
    (h3 : (getN L.nodes k).count < C) :
    insertE C alloc L index v
      = (Outcome.ok,
         { nodes :=
             setN L.nodes k
               (shiftUp
                 { count := (getN L.nodes k).count + 1
                   values := updSlot (getN L.nodes k).values (getN L.nodes k).count v }
                 li0.toNat)
           size_ := L.size_ + 1
           nodecount_ := L.nodecount_ }) := by
  unfold insertE
  rw [if_neg hr, if_neg h1, if_neg h2, hfind]
  dsimp only
  rw [if_pos h3]

theorem insertE_full (C : Nat) (alloc : Bool) (L : Lariat) (index : Int) (v : Nat)
    (k : Nat) (li0 : Int)
    (hr : ¬(index < 0 ∨ (L.size_ : Int) < index))
    (h1 : index ≠ (L.size_ : Int)) (h2 : index ≠ 0)
    (hfind : find_element L.nodes index = some (k, li0))
    (h3 : ¬((getN L.nodes k).count < C)) :
    insertE C alloc L index v = insert_in_full_nodeE C alloc L k li0.toNat v := by
  unfold insertE
  rw [if_neg hr, if_neg h1, if_neg h2, hfind]
  dsimp only
  rw [if_neg h3]

theorem numSplitOf_lt (c : Nat) (h : 0 < c) : numSplitOf c < c := by
  unfold numSplitOf
  have h2 : c / 2 < c ∨ c = 1 := by
    rcases Nat.lt_or_ge c 2 with h3 | h3
    · right; omega
    · left; exact Nat.div_lt_self (by omega) (by omega)
  rcases h2 with h2 | h2 <;> simp [h2] <;> omega

theorem drop_take_snoc_live (n : LNode) (li : Nat) (h : li < n.count) :
    (n.live.take (n.count - 1)).drop li ++ [n.values (n.count - 1)] = n.live.drop li := by
  obtain ⟨d, hd⟩ : ∃ d, n.count = d + 1 := ⟨n.count - 1, by omega⟩
  have hd1 : n.count - 1 = d := by omega
  have hdecomp : n.live = n.live.take d ++ [n.values d] := by
    show (List.range n.count).map n.values = _
    rw [live_take n d (by omega), hd, List.range_succ, List.map_append]
    rfl
  rw [hd1]
  conv_rhs => rw [hdecomp]
  rw [List.drop_append_of_le_length (by rw [List.length_take, live_length]; omega)]

theorem getN_mid_fst (A B : List LNode) (x y : LNode) (k : Nat) (hA : A.length = k) :
    getN (A ++ [x, y] ++ B) k = x := by
  rw [List.append_assoc, getN, List.getD_append_right _ _ _ _ (by omega), hA, Nat.sub_self]
  rfl

theorem getN_mid_snd (A B : List LNode) (x y : LNode) (k : Nat) (hA : A.length = k) :
    getN (A ++ [x, y] ++ B) (k + 1) = y := by
  rw [List.append_assoc, getN, List.getD_append_right _ _ _ _ (by omega), hA,
    Nat.add_sub_cancel_left]
  rfl

theorem setN_mid_snd (A B : List LNode) (x y n : LNode) (k : Nat) (hA : A.length = k) :
    setN (A ++ [x, y] ++ B) (k + 1) n = A ++ [x, n] ++ B := by
  unfold setN
  rw [List.append_assoc, List.set_append_right _ _ (by omega), hA, Nat.add_sub_cancel_left]
  rw [List.append_assoc]
  rfl

theorem push_back_in_nodeE_spare (C : Nat) (M : Lariat) (k v : Nat)
    (h : (getN M.nodes k).count < C) :
    push_back_in_nodeE C true M k v
      = (Outcome.ok,
         { nodes :=
             setN M.nodes k
               { count := (getN M.nodes k).count + 1
                 values := updSlot (getN M.nodes k).values (getN M.nodes k).count v }
           size_ := M.size_ + 1
           nodecount_ := M.nodecount_ }) := by
  unfold push_back_in_nodeE
  rw [if_neg (by omega)]

theorem trav_two_mid (A B : List LNode) (x y : LNode) :
    trav (A ++ [x, y] ++ B) = trav A ++ (x.live ++ (y.live ++ trav B)) := by
  rw [List.append_assoc, List.cons_append, List.cons_append, List.nil_append]
  rw [trav_append, trav_cons, trav_cons]

theorem insert_in_full_nodeE_parts (C : Nat) (L : Lariat) (k li v : Nat)
    (hk : k < L.nodes.length) (hli : li < (getN L.nodes k).count)
    (hC : (getN L.nodes k).count = C) :
    (insert_in_full_nodeE C true L k li v).1 = Outcome.ok ∧
    traversal (insert_in_full_nodeE C true L k li v).2
      = trav (L.nodes.take k)
          ++ (((getN L.nodes k).live.take li ++ v :: (getN L.nodes k).live.drop li)
            ++ trav (L.nodes.drop (k + 1))) ∧
    (insert_in_full_nodeE C true L k li v).2.size_ = L.size_ + 1 ∧
    (∃ A B, (insert_in_full_nodeE C true L k li v).2.nodes
        = L.nodes.take k ++ [A, B] ++ L.nodes.drop (k + 1)
      ∧ A.count = C - numSplitOf C ∧ B.count = numSplitOf C + 1) ∧
    (insert_in_full_nodeE C true L k li v).2.nodecount_ = L.nodecount_ + 1 := by
  have hC0 : 0 < C := by omega
  have hred : insert_in_full_nodeE C true L k li v
      = push_back_in_nodeE C true
          (splitE true
            { L with
                nodes :=
                  setN L.nodes k
                    { count := (shiftUp (getN L.nodes k) li).count
                      values := updSlot (shiftUp (getN L.nodes k) li).values li v } }
            k).2.1
          (k + 1) ((shiftUp (getN L.nodes k) li).values li) := rfl
  set n2 : LNode :=
    { count := (shiftUp (getN L.nodes k) li).count
      values := updSlot (shiftUp (getN L.nodes k) li).values li v } with hn2def
  set L1 : Lariat := { L with nodes := setN L.nodes k n2 } with hL1def
  have hn2count : n2.count = C := by
    rw [hn2def]
    show (shiftUp (getN L.nodes k) li).count = C
    rw [shiftUp_count]
    exact hC
  have hn2live : n2.live
      = (getN L.nodes k).live.take li
          ++ v :: (((getN L.nodes k).live.take ((getN L.nodes k).count - 1)).drop li) := by
    rw [hn2def]
    exact full_overwrite_live (getN L.nodes k) v li hli
  have hL1nodes : L1.nodes = setN L.nodes k n2 := by rw [hL1def]
  have hL1len : L1.nodes.length = L.nodes.length := by
    rw [hL1nodes]
    exact length_setN _ _ _
  have hgetL1 : getN L1.nodes k = n2 := by
    rw [hL1nodes]
    exact getN_setN_self _ _ _ hk
  have hL2nodes : (splitE true L1 k).2.1.nodes
      = L.nodes.take k ++ [splitKeep n2, splitNew n2] ++ L.nodes.drop (k + 1) := by
    show L1.nodes.take k ++ [splitKeep (getN L1.nodes k), splitNew (getN L1.nodes k)]
          ++ L1.nodes.drop (k + 1) = _
    rw [hgetL1, hL1nodes, take_setN _ _ _ hk, drop_setN _ _ _ hk]
  have htklen : (L.nodes.take k).length = k := by
    rw [List.length_take]
    omega
  have hgetnew : getN (splitE true L1 k).2.1.nodes (k + 1) = splitNew n2 := by
    rw [hL2nodes]
    exact getN_mid_snd _ _ _ _ k htklen
  have hnewcount : (splitNew n2).count = numSplitOf C := by
    show numSplitOf n2.count = numSplitOf C
    rw [hn2count]
  have hnewlt : (getN (splitE true L1 k).2.1.nodes (k + 1)).count < C := by
    rw [hgetnew, hnewcount]
    exact numSplitOf_lt C hC0
  have hpb := push_back_in_nodeE_spare C (splitE true L1 k).2.1 (k + 1)
    ((shiftUp (getN L.nodes k) li).values li) hnewlt
  rw [hred, hpb]
  have hsetnodes :
      setN (splitE true L1 k).2.1.nodes (k + 1)
        { count := (getN (splitE true L1 k).2.1.nodes (k + 1)).count + 1
          values := updSlot (getN (splitE true L1 k).2.1.nodes (k + 1)).values
            (getN (splitE true L1 k).2.1.nodes (k + 1)).count
            ((shiftUp (getN L.nodes k) li).values li) }
      = L.nodes.take k
          ++ [splitKeep n2,
              { count := (splitNew n2).count + 1
                values := updSlot (splitNew n2).values (splitNew n2).count
                  ((shiftUp (getN L.nodes k) li).values li) }]
          ++ L.nodes.drop (k + 1) := by
    rw [hgetnew, hL2nodes]
    exact setN_mid_snd _ _ _ _ _ k htklen
  refine ⟨rfl, ?_, rfl, ?_, rfl⟩
  · rw [traversal_eq_trav]
    show trav (setN (splitE true L1 k).2.1.nodes (k + 1) _) = _
    rw [hsetnodes, trav_two_mid]
    have hlive3 :
        ({ count := (splitNew n2).count + 1
           values := updSlot (splitNew n2).values (splitNew n2).count
             ((shiftUp (getN L.nodes k) li).values li) } : LNode).live
          = (splitNew n2).live ++ [(shiftUp (getN L.nodes k) li).values li] :=
      live_snoc (splitNew n2) ((shiftUp (getN L.nodes k) li).values li)
    rw [hlive3, shiftUp_at_li (getN L.nodes k) li hli]
    have hks : (splitKeep n2).live
          ++ (((splitNew n2).live ++ [(getN L.nodes k).values ((getN L.nodes k).count - 1)])
            ++ trav (L.nodes.drop (k + 1)))
        = n2.live ++ ([(getN L.nodes k).values ((getN L.nodes k).count - 1)]
            ++ trav (L.nodes.drop (k + 1))) := by
      rw [List.append_assoc ((splitNew n2).live)]
      rw [← List.append_assoc ((splitKeep n2).live)]
      rw [split_live_parts]
    rw [hks, hn2live]
    rw [show (getN L.nodes k).live.drop li
        = ((getN L.nodes k).live.take ((getN L.nodes k).count - 1)).drop li
          ++ [(getN L.nodes k).values ((getN L.nodes k).count - 1)] from
      (drop_take_snoc_live (getN L.nodes k) li hli).symm]
    simp [List.append_assoc]
  · refine ⟨splitKeep n2,
      { count := (splitNew n2).count + 1
        values := updSlot (splitNew n2).values (splitNew n2).count
          ((shiftUp (getN L.nodes k) li).values li) }, ?_, ?_, ?_⟩
    · exact hsetnodes
    · show n2.count - numSplitOf n2.count = C - numSplitOf C
      rw [hn2count]
    · show numSplitOf n2.count + 1 = numSplitOf C + 1
      rw [hn2count]

theorem getN_mem (ns : List LNode) (k : Nat) (h : k < ns.length) : getN ns k ∈ ns := by
  have : getN ns k = ns[k] := by
    simp [getN, List.getD, List.getElem?_eq_getElem h]
  rw [this]
  exact List.getElem_mem h

/-- Claim C1: for every well-formed container with elements e0..e(n-1) and
every middle index 0 < index < n, insert(index, v) succeeds (allocation
permitting) and afterwards the traversal is e0..e(index-1), v,
e(index)..e(n-1) with size() = n + 1.  The statement covers both paths: on
the spare-capacity path the value is appended at the segment's tail slot and
the repeated pairwise swap lands it at localIndex, pushing every element
previously at or after localIndex one slot toward the tail; on the
full-segment path the order is likewise preserved across the split. -/
theorem insert_middle_correct (C : Nat) (L : Lariat) (idx v : Nat)
    (hInv : LInv C L) (h0 : 0 < idx) (hs : idx < L.size_) :
    (insertE C true L (idx : Int) v).1 = Outcome.ok ∧
    traversal (insertE C true L (idx : Int) v).2 = (traversal L).insertIdx idx v ∧
    (insertE C true L (idx : Int) v).2.size_ = L.size_ + 1 := by
  obtain ⟨hsz, hnc, hcap, hpos⟩ := hInv
  have hr : ¬((idx : Int) < 0 ∨ (L.size_ : Int) < (idx : Int)) := by omega
  have h1 : (idx : Int) ≠ (L.size_ : Int) := by omega
  have h2 : (idx : Int) ≠ 0 := by omega
  obtain ⟨k, li, hfind, hk, hli, hsum⟩ := find_element_spec L.nodes idx (by omega)
  have htonat : ((li : Int)).toNat = li := rfl
  have hdecomp : traversal L
      = trav (L.nodes.take k) ++ ((getN L.nodes k).live ++ trav (L.nodes.drop (k + 1))) := by
    rw [traversal_eq_trav, trav_decomp L.nodes k hk, List.append_assoc]
  have hprelen : (trav (L.nodes.take k)).length = sumCounts (L.nodes.take k) := trav_length _
  have hinsertIdx : (traversal L).insertIdx idx v
      = trav (L.nodes.take k)
          ++ (((getN L.nodes k).live.take li ++ v :: (getN L.nodes k).live.drop li)
            ++ trav (L.nodes.drop (k + 1))) := by
    rw [hdecomp]
    rw [show idx = (trav (L.nodes.take k)).length + li from by rw [hprelen]; omega]
    exact insertIdx_append_middle _ _ _ li v (by rw [live_length]; omega)
  by_cases hcnt : (getN L.nodes k).count < C
  · rw [insertE_spare C true L (idx : Int) v k (li : Int) hr h1 h2 hfind hcnt]
    refine ⟨rfl, ?_, rfl⟩
    rw [traversal_eq_trav]
    show trav (setN L.nodes k _) = _
    rw [htonat, trav_setN L.nodes k _ hk,
      insert_in_node_live (getN L.nodes k) v li (by omega), hinsertIdx, List.append_assoc]
  · have hfull : (getN L.nodes k).count = C := by
      have := hcap (getN L.nodes k) (getN_mem L.nodes k hk)
      omega
    rw [insertE_full C true L (idx : Int) v k (li : Int) hr h1 h2 hfind hcnt, htonat]
    obtain ⟨hok, htrav, hsize, _, _⟩ := insert_in_full_nodeE_parts C L k li v hk hli hfull
    exact ⟨hok, by rw [htrav, hinsertIdx], hsize⟩

theorem insert_middle_correct_witness :
    (insertE 4 true exSeven ((3 : Nat) : Int) 9).1 = Outcome.ok ∧
    traversal (insertE 4 true exSeven ((3 : Nat) : Int) 9).2
      = (traversal exSeven).insertIdx 3 9 ∧
    (insertE 4 true exSeven ((3 : Nat) : Int) 9).2.size_ = exSeven.size_ + 1 :=
  insert_middle_correct 4 exSeven 3 9 (by decide) (by decide) (by decide)

/-! ### Preservation of the representation invariant -/

theorem sumCounts_decomp (ns : List LNode) (k : Nat) (h : k < ns.length) :
    sumCounts ns = sumCounts (ns.take k) + (getN ns k).count + sumCounts (ns.drop (k + 1)) := by
  conv_lhs => rw [nodes_decomp ns k h]
  rw [sumCounts_append, sumCounts_cons]
  omega

theorem sumCounts_setN (ns : List LNode) (k : Nat) (n : LNode) (h : k < ns.length) :
    sumCounts (setN ns k n) + (getN ns k).count = sumCounts ns + n.count := by
  rw [setN_decomp ns k n h, sumCounts_append, sumCounts_cons, sumCounts_decomp ns k h]
  omega

theorem mem_setN (ns : List LNode) (k : Nat) (n m : LNode)
    (hm : m ∈ setN ns k n) : m ∈ ns ∨ m = n :=
  List.mem_or_eq_of_mem_set hm

theorem mem_two_mid (A B : List LNode) (x y m : LNode)
    (hm : m ∈ A ++ [x, y] ++ B) : m ∈ A ∨ m = x ∨ m = y ∨ m ∈ B := by
  simp only [List.append_assoc, List.mem_append, List.mem_cons, List.mem_singleton] at hm
  rcases hm with h | h | h
  · exact Or.inl h
  · rcases h with h | h | h
    · exact Or.inr (Or.inl h)
    · exact Or.inr (Or.inr (Or.inl h))
    · simp at h
  · exact Or.inr (Or.inr (Or.inr h))

theorem LInv_emptyLariat (C : Nat) : LInv C emptyLariat := by
  refine ⟨rfl, rfl, ?_, ?_⟩ <;> intro n hn <;> simp [emptyLariat] at hn

theorem LInv_setN_incr (C : Nat) (L : Lariat) (k : Nat) (n : LNode)
    (hInv : LInv C L) (hk : k < L.nodes.length)
    (hcnt : n.count = (getN L.nodes k).count + 1)
    (hle : (getN L.nodes k).count + 1 ≤ C) :
    LInv C { nodes := setN L.nodes k n, size_ := L.size_ + 1, nodecount_ := L.nodecount_ } := by
  obtain ⟨hsz, hnc, hcap, hpos⟩ := hInv
  have hsum := sumCounts_setN L.nodes k n hk
  refine ⟨?_, ?_, ?_, ?_⟩
  · show L.size_ + 1 = sumCounts (setN L.nodes k n)
    omega
  · show L.nodecount_ = (setN L.nodes k n).length
    rw [length_setN]
    exact hnc
  · intro m hm
    rcases mem_setN _ _ _ _ hm with hmem | rfl
    · exact hcap m hmem
    · omega
  · intro m hm
    rcases mem_setN _ _ _ _ hm with hmem | rfl
    · exact hpos m hmem
    · omega

theorem LInv_setN_same_count (C : Nat) (L : Lariat) (k : Nat) (n : LNode)
    (hInv : LInv C L) (hk : k < L.nodes.length)
    (hcnt : n.count = (getN L.nodes k).count) :
    LInv C { nodes := setN L.nodes k n, size_ := L.size_, nodecount_ := L.nodecount_ } := by
  obtain ⟨hsz, hnc, hcap, hpos⟩ := hInv
  have hsum := sumCounts_setN L.nodes k n hk
  have hcapk := hcap (getN L.nodes k) (getN_mem L.nodes k hk)
  have hposk := hpos (getN L.nodes k) (getN_mem L.nodes k hk)
  refine ⟨by show L.size_ = sumCounts (setN L.nodes k n); omega, ?_, ?_, ?_⟩
  · show L.nodecount_ = (setN L.nodes k n).length
    rw [length_setN]
    exact hnc
  · intro m hm
    rcases mem_setN _ _ _ _ hm with hmem | rfl
    · exact hcap m hmem
    · omega
  · intro m hm
    rcases mem_setN _ _ _ _ hm with hmem | rfl
    · exact hpos m hmem
    · omega

theorem LInv_dec_state (C : Nat) (L : Lariat) (k : Nat) (n : LNode)
    (hInv : LInv C L) (hk : k < L.nodes.length)
    (hcnt : n.count + 1 = (getN L.nodes k).count) (hpos1 : 1 ≤ n.count) :
    LInv C { nodes := setN L.nodes k n, size_ := L.size_ - 1, nodecount_ := L.nodecount_ } := by
  obtain ⟨hsz, hnc, hcap, hpos⟩ := hInv
  have hsum := sumCounts_setN L.nodes k n hk
  have hcapk := hcap (getN L.nodes k) (getN_mem L.nodes k hk)
  have hd := sumCounts_decomp L.nodes k hk
  refine ⟨by show L.size_ - 1 = sumCounts (setN L.nodes k n); omega, ?_, ?_, ?_⟩
  · show L.nodecount_ = (setN L.nodes k n).length
    rw [length_setN]
    exact hnc
  · intro m hm
    rcases mem_setN _ _ _ _ hm with hmem | rfl
    · exact hcap m hmem
    · omega
  · intro m hm
    rcases mem_setN _ _ _ _ hm with hmem | rfl
    · exact hpos m hmem
    · omega

theorem eraseIdx_setN (ns : List LNode) (k : Nat) (n : LNode) :
    (setN ns k n).eraseIdx k = ns.eraseIdx k := by
  rw [List.eraseIdx_eq_take_drop_succ, List.eraseIdx_eq_take_drop_succ]
  by_cases hk : k < ns.length
  · rw [take_setN ns k n hk, drop_setN ns k n hk]
  · rw [setN, List.set_eq_of_length_le (by omega)]

theorem LInv_del_state (C : Nat) (L : Lariat) (k : Nat) (n : LNode)
    (hInv : LInv C L) (hk : k < L.nodes.length)
    (hcnt : n.count + 1 = (getN L.nodes k).count) (hzero : n.count = 0) :
    LInv C (deleteNodeAt
      { nodes := setN L.nodes k n, size_ := L.size_ - 1, nodecount_ := L.nodecount_ } k) := by
  obtain ⟨hsz, hnc, hcap, hpos⟩ := hInv
  have hd := sumCounts_decomp L.nodes k hk
  show LInv C
    { nodes := (setN L.nodes k n).eraseIdx k
      size_ := L.size_ - 1
      nodecount_ := L.nodecount_ - 1 }
  rw [eraseIdx_setN]
  have herase : L.nodes.eraseIdx k = L.nodes.take k ++ L.nodes.drop (k + 1) :=
    List.eraseIdx_eq_take_drop_succ L.nodes k
  refine ⟨?_, ?_, ?_, ?_⟩
  · show L.size_ - 1 = sumCounts (L.nodes.eraseIdx k)
    rw [herase, sumCounts_append]
    omega
  · show L.nodecount_ - 1 = (L.nodes.eraseIdx k).length
    rw [List.length_eraseIdx_of_lt hk]
    omega
  · intro m hm
    exact hcap m (List.mem_of_mem_eraseIdx hm)
  · intro m hm
    exact hpos m (List.mem_of_mem_eraseIdx hm)

theorem sumCounts_two_mid (A B : List LNode) (x y : LNode) :
    sumCounts (A ++ [x, y] ++ B) = sumCounts A + x.count + y.count + sumCounts B := by
  rw [sumCounts_append, sumCounts_append, sumCounts_cons, sumCounts_cons]
  show _ + (_ + (_ + sumCounts [])) + _ = _
  rw [show sumCounts [] = 0 from rfl]
  omega

theorem length_two_mid (A B : List LNode) (x y : LNode) :
    (A ++ [x, y] ++ B).length = A.length + 2 + B.length := by
  simp only [List.length_append, List.length_cons, List.length_nil]
  try omega

theorem LInv_split_append_state (C : Nat) (M : Lariat) (k v : Nat) (hC : 0 < C)
    (hInv : LInv C M) (hk : k < M.nodes.length) (hfull : (getN M.nodes k).count = C) :
    LInv C
      { nodes :=
          setN (splitE true M k).2.1.nodes (k + 1)
            { count := (getN (splitE true M k).2.1.nodes (k + 1)).count + 1
              values := updSlot (getN (splitE true M k).2.1.nodes (k + 1)).values
                (getN (splitE true M k).2.1.nodes (k + 1)).count v }
        size_ := M.size_ + 1
        nodecount_ := M.nodecount_ + 1 } := by
  obtain ⟨hsz, hnc, hcap, hpos⟩ := hInv
  have hnsle : numSplitOf C ≤ C := numSplitOf_le C
  have hnslt : numSplitOf C < C := numSplitOf_lt C hC
  have htklen : (M.nodes.take k).length = k := by rw [List.length_take]; omega
  have hL2nodes : (splitE true M k).2.1.nodes
      = M.nodes.take k ++ [splitKeep (getN M.nodes k), splitNew (getN M.nodes k)]
          ++ M.nodes.drop (k + 1) := rfl
  have hgetnew : getN (splitE true M k).2.1.nodes (k + 1) = splitNew (getN M.nodes k) := by
    rw [hL2nodes]
    exact getN_mid_snd _ _ _ _ k htklen
  have hkeepcount : (splitKeep (getN M.nodes k)).count = C - numSplitOf C := by
    show (getN M.nodes k).count - numSplitOf (getN M.nodes k).count = C - numSplitOf C
    rw [hfull]
  have hnewcount : (getN (splitE true M k).2.1.nodes (k + 1)).count = numSplitOf C := by
    rw [hgetnew]
    show numSplitOf (getN M.nodes k).count = numSplitOf C
    rw [hfull]
  have hset : setN (splitE true M k).2.1.nodes (k + 1)
        { count := (getN (splitE true M k).2.1.nodes (k + 1)).count + 1
          values := updSlot (getN (splitE true M k).2.1.nodes (k + 1)).values
            (getN (splitE true M k).2.1.nodes (k + 1)).count v }
      = M.nodes.take k
          ++ [splitKeep (getN M.nodes k),
              { count := (getN (splitE true M k).2.1.nodes (k + 1)).count + 1
                values := updSlot (getN (splitE true M k).2.1.nodes (k + 1)).values
                  (getN (splitE true M k).2.1.nodes (k + 1)).count v }]
          ++ M.nodes.drop (k + 1) := by
    rw [hL2nodes]
    exact setN_mid_snd _ _ _ _ _ k htklen
  have hdec := sumCounts_decomp M.nodes k hk
  refine ⟨?_, ?_, ?_, ?_⟩
  · show M.size_ + 1 = sumCounts _
    rw [hset, sumCounts_two_mid, hkeepcount]
    show M.size_ + 1 = sumCounts (M.nodes.take k) + (C - numSplitOf C)
      + ((getN (splitE true M k).2.1.nodes (k + 1)).count + 1) + sumCounts (M.nodes.drop (k + 1))
    rw [hnewcount]
    omega
  · show M.nodecount_ + 1 = List.length _
    rw [hset, length_two_mid, htklen, List.length_drop]
    omega
  · intro m hm
    rw [hset] at hm
    rcases mem_two_mid _ _ _ _ _ hm with h | h | h | h
    · exact hcap m (List.mem_of_mem_take h)
    · rw [h, hkeepcount]; omega
    · rw [h]
      show (getN (splitE true M k).2.1.nodes (k + 1)).count + 1 ≤ C
      rw [hnewcount]
      omega
    · exact hcap m (List.mem_of_mem_drop h)
  · intro m hm
    rw [hset] at hm
    rcases mem_two_mid _ _ _ _ _ hm with h | h | h | h
    · exact hpos m (List.mem_of_mem_take h)
    · rw [h, hkeepcount]; omega
    · rw [h]
      show 1 ≤ (getN (splitE true M k).2.1.nodes (k + 1)).count + 1
      omega
    · exact hpos m (List.mem_of_mem_drop h)

theorem LInv_push_first (C : Nat) (L : Lariat) (v : Nat) (hC : 0 < C)
    (hInv : LInv C L) (hempty : L.nodes = []) :
    LInv C (push_first_valueE true L v).2 := by
  obtain ⟨hsz, hnc, _, _⟩ := hInv
  have hsz0 : L.size_ = 0 := by rw [hsz, hempty]; rfl
  have hnc0 : L.nodecount_ = 0 := by rw [hnc, hempty]; rfl
  refine ⟨?_, ?_, ?_, ?_⟩
  · show L.size_ + 1 = sumCounts [{ count := 1, values := updSlot (fun _ => 0) 0 v }]
    rw [hsz0]
    rfl
  · show L.nodecount_ + 1 = 1
    omega
  · intro m hm
    have hm2 : m = { count := 1, values := updSlot (fun _ => 0) 0 v } := by
      simpa [push_first_valueE] using hm
    rw [hm2]
    show 1 ≤ C
    omega
  · intro m hm
    have hm2 : m = { count := 1, values := updSlot (fun _ => 0) 0 v } := by
      simpa [push_first_valueE] using hm
    rw [hm2]

theorem getN_splitE_new (M : Lariat) (k : Nat) (hk : k ≤ M.nodes.length) :
    getN (splitE true M k).2.1.nodes (k + 1) = splitNew (getN M.nodes k) := by
  show getN (M.nodes.take k ++ [splitKeep (getN M.nodes k), splitNew (getN M.nodes k)]
    ++ M.nodes.drop (k + 1)) (k + 1) = _
  exact getN_mid_snd _ _ _ _ k (by rw [List.length_take]; omega)

theorem LInv_push_back (C : Nat) (L : Lariat) (v : Nat) (hC : 0 < C) (hInv : LInv C L) :
    LInv C (push_backE C true L v).2 := by
  by_cases he : L.nodes.isEmpty
  · unfold push_backE
    rw [if_pos he]
    exact LInv_push_first C L v hC hInv (List.isEmpty_iff.mp he)
  · have hne : L.nodes ≠ [] := fun h => by rw [h] at he; simp at he
    have hlen : 0 < L.nodes.length := List.length_pos.mpr hne
    unfold push_backE
    rw [if_neg he]
    dsimp only
    by_cases hf : (getN L.nodes (L.nodes.length - 1)).count = C
    · rw [if_pos hf]
      show LInv C (push_back_in_nodeE C true (splitE true L (L.nodes.length - 1)).2.1
        ((splitE true L (L.nodes.length - 1)).2.1.nodes.length - 1) v).2
      have hlen2 : (splitE true L (L.nodes.length - 1)).2.1.nodes.length
          = L.nodes.length + 1 := by
        show (L.nodes.take (L.nodes.length - 1)
            ++ [splitKeep (getN L.nodes (L.nodes.length - 1)),
                splitNew (getN L.nodes (L.nodes.length - 1))]
            ++ L.nodes.drop ((L.nodes.length - 1) + 1)).length = L.nodes.length + 1
        rw [length_two_mid, List.length_take, List.length_drop]
        omega
      rw [show (splitE true L (L.nodes.length - 1)).2.1.nodes.length - 1
          = (L.nodes.length - 1) + 1 from by rw [hlen2]; omega]
      have hlt : (getN (splitE true L (L.nodes.length - 1)).2.1.nodes
          ((L.nodes.length - 1) + 1)).count < C := by
        rw [getN_splitE_new L (L.nodes.length - 1) (by omega)]
        show numSplitOf (getN L.nodes (L.nodes.length - 1)).count < C
        rw [hf]
        exact numSplitOf_lt C hC
      rw [push_back_in_nodeE_spare C _ _ v hlt]
      exact LInv_split_append_state C L (L.nodes.length - 1) v hC
        ⟨hInv.1, hInv.2.1, hInv.2.2.1, hInv.2.2.2⟩ (by omega) hf
    · rw [if_neg hf]
      have hlt : (getN L.nodes (L.nodes.length - 1)).count < C := by
        have := hInv.2.2.1 (getN L.nodes (L.nodes.length - 1))
          (getN_mem L.nodes (L.nodes.length - 1) (by omega))
        omega
      rw [push_back_in_nodeE_spare C L _ v hlt]
      exact LInv_setN_incr C L _ _ hInv (by omega) rfl (by omega)

theorem LInv_push_front (C : Nat) (L : Lariat) (v : Nat) (hC : 0 < C) (hInv : LInv C L) :
    LInv C (push_frontE C true L v).2 := by
  by_cases he : L.nodes.isEmpty
  · unfold push_frontE
    rw [if_pos he]
    exact LInv_push_first C L v hC hInv (List.isEmpty_iff.mp he)
  · have hne : L.nodes ≠ [] := fun h => by rw [h] at he; simp at he
    have hlen : 0 < L.nodes.length := List.length_pos.mpr hne
    unfold push_frontE
    rw [if_neg he]
    dsimp only
    by_cases hf : (getN L.nodes 0).count = C
    · rw [if_pos hf]
      show LInv C (push_back_in_nodeE C true
        (splitE true
          { nodes :=
              setN L.nodes 0
                { count := (shiftUp (getN L.nodes 0) 0).count
                  values := updSlot (shiftUp (getN L.nodes 0) 0).values 0 v }
            size_ := L.size_
            nodecount_ := L.nodecount_ }
          0).2.1
        1 ((shiftUp (getN L.nodes 0) 0).values 0)).2
      have hInvF : LInv C
          { nodes :=
              setN L.nodes 0
                { count := (shiftUp (getN L.nodes 0) 0).count
                  values := updSlot (shiftUp (getN L.nodes 0) 0).values 0 v }
            size_ := L.size_
            nodecount_ := L.nodecount_ } :=
        LInv_setN_same_count C L 0 _ hInv hlen rfl
      have hlenF : 0 <
          (setN L.nodes 0
            { count := (shiftUp (getN L.nodes 0) 0).count
              values := updSlot (shiftUp (getN L.nodes 0) 0).values 0 v }).length := by
        rw [length_setN]
        omega
      have hfullF : (getN
          (setN L.nodes 0
            { count := (shiftUp (getN L.nodes 0) 0).count
              values := updSlot (shiftUp (getN L.nodes 0) 0).values 0 v }) 0).count = C := by
        rw [getN_setN_self L.nodes 0 _ hlen]
        exact hf
      have hlt : (getN
          (splitE true
            { nodes :=
                setN L.nodes 0
                  { count := (shiftUp (getN L.nodes 0) 0).count
                    values := updSlot (shiftUp (getN L.nodes 0) 0).values 0 v }
              size_ := L.size_
              nodecount_ := L.nodecount_ }
            0).2.1.nodes (0 + 1)).count < C := by
        rw [getN_splitE_new _ 0 (Nat.zero_le _)]
        show numSplitOf (getN
          (setN L.nodes 0
            { count := (shiftUp (getN L.nodes 0) 0).count
              values := updSlot (shiftUp (getN L.nodes 0) 0).values 0 v }) 0).count < C
        rw [hfullF]
        exact numSplitOf_lt C hC
      rw [show (1 : Nat) = 0 + 1 from rfl]
      rw [push_back_in_nodeE_spare C _ (0 + 1) _ hlt]
      exact LInv_split_append_state C _ 0 _ hC hInvF hlenF hfullF
    · rw [if_neg hf]
      have hle : (getN L.nodes 0).count + 1 ≤ C := by
        have := hInv.2.2.1 (getN L.nodes 0) (getN_mem L.nodes 0 hlen)
        omega
      exact LInv_setN_incr C L 0 _ hInv hlen rfl hle

theorem LInv_two_mid_state (C : Nat) (L : Lariat) (k : Nat) (A B : LNode) (M : Lariat)
    (hInv : LInv C L) (hk : k < L.nodes.length)
    (hsum : A.count + B.count = (getN L.nodes k).count + 1)
    (hA1 : 1 ≤ A.count) (hB1 : 1 ≤ B.count) (hAC : A.count ≤ C) (hBC : B.count ≤ C)
    (hn : M.nodes = L.nodes.take k ++ [A, B] ++ L.nodes.drop (k + 1))
    (hs : M.size_ = L.size_ + 1) (hc : M.nodecount_ = L.nodecount_ + 1) :
    LInv C M := by
  obtain ⟨hsz, hnc, hcap, hpos⟩ := hInv
  have hd := sumCounts_decomp L.nodes k hk
  have htk : (L.nodes.take k).length = k := by rw [List.length_take]; omega
  refine ⟨?_, ?_, ?_, ?_⟩
  · rw [hs, hn, sumCounts_two_mid]
    omega
  · rw [hc, hn, length_two_mid, htk, List.length_drop]
    omega
  · intro m hm
    rw [hn] at hm
    rcases mem_two_mid _ _ _ _ _ hm with h | h | h | h
    · exact hcap m (List.mem_of_mem_take h)
    · rw [h]; exact hAC
    · rw [h]; exact hBC
    · exact hcap m (List.mem_of_mem_drop h)
  · intro m hm
    rw [hn] at hm
    rcases mem_two_mid _ _ _ _ _ hm with h | h | h | h
    · exact hpos m (List.mem_of_mem_take h)
    · rw [h]; exact hA1
    · rw [h]; exact hB1
    · exact hpos m (List.mem_of_mem_drop h)

theorem find_element_some_spec (nodes : List LNode) : ∀ (index : Int) (k : Nat) (li0 : Int),
    find_element nodes index = some (k, li0) →
    k < nodes.length ∧ li0 < ((getN nodes k).count : Int) ∧ (0 ≤ index → 0 ≤ li0) := by
  induction nodes with
  | nil => intro index k li0 h; simp [find_element] at h
  | cons n rest ih =>
    intro index k li0 h
    rw [find_element] at h
    by_cases hc : (n.count : Int) ≤ index
    · rw [if_pos hc] at h
      cases hrec : find_element rest (index - n.count) with
      | none => rw [hrec] at h; simp at h
      | some p =>
        obtain ⟨k2, li2⟩ := p
        rw [hrec] at h
        simp only [Option.some.injEq, Prod.mk.injEq] at h
        obtain ⟨hk, hli⟩ := h
        obtain ⟨h1, h2, h3⟩ := ih (index - n.count) k2 li2 hrec
        refine ⟨?_, ?_, ?_⟩
        · rw [← hk]; simpa using h1
        · rw [← hk, ← hli, getN_cons_succ]; exact h2
        · intro hpos
          exact hli ▸ h3 (by omega)
    · rw [if_neg hc] at h
      simp only [Option.some.injEq, Prod.mk.injEq] at h
      obtain ⟨hk, hli⟩ := h
      have hk0 : k = 0 := hk.symm
      have hli0 : li0 = index := hli.symm
      subst hk0
      subst hli0
      refine ⟨by simp, ?_, fun h => h⟩
      rw [getN_cons_zero]
      omega

theorem LInv_pop_front (C : Nat) (L : Lariat) (hInv : LInv C L) :
    LInv C (pop_frontE L).2 := by
  by_cases he : L.nodes.isEmpty
  · unfold pop_frontE
    rw [if_pos he]
    exact hInv
  · have hne : L.nodes ≠ [] := fun h => by rw [h] at he; simp at he
    have hlen : 0 < L.nodes.length := List.length_pos.mpr hne
    have hpos1 : 1 ≤ (getN L.nodes 0).count :=
      hInv.2.2.2 (getN L.nodes 0) (getN_mem L.nodes 0 hlen)
    unfold pop_frontE
    rw [if_neg he]
    dsimp only
    by_cases hz : (shiftDown (getN L.nodes 0) 0).count - 1 = 0
    · rw [if_pos hz]
      exact LInv_del_state C L 0 _ hInv hlen
        (by show (getN L.nodes 0).count - 1 + 1 = (getN L.nodes 0).count; omega) hz
    · rw [if_neg hz]
      have hz2 : 1 ≤ (getN L.nodes 0).count - 1 := by
        have hsd : (shiftDown (getN L.nodes 0) 0).count = (getN L.nodes 0).count := rfl
        omega
      exact LInv_dec_state C L 0 _ hInv hlen
        (by show (getN L.nodes 0).count - 1 + 1 = (getN L.nodes 0).count; omega) hz2

theorem LInv_pop_back (C : Nat) (L : Lariat) (hInv : LInv C L) :
    LInv C (pop_backE L).2 := by
  by_cases he : L.nodes.isEmpty
  · unfold pop_backE
    rw [if_pos he]
    exact hInv
  · have hne : L.nodes ≠ [] := fun h => by rw [h] at he; simp at he
    have hlen : 0 < L.nodes.length := List.length_pos.mpr hne
    have hpos1 : 1 ≤ (getN L.nodes (L.nodes.length - 1)).count :=
      hInv.2.2.2 (getN L.nodes (L.nodes.length - 1))
        (getN_mem L.nodes (L.nodes.length - 1) (by omega))
    unfold pop_backE
    rw [if_neg he]
    dsimp only
    by_cases hz : (getN L.nodes (L.nodes.length - 1)).count - 1 = 0
    · rw [if_pos hz]
      exact LInv_del_state C L (L.nodes.length - 1) _ hInv (by omega)
        (by show (getN L.nodes (L.nodes.length - 1)).count - 1 + 1
              = (getN L.nodes (L.nodes.length - 1)).count
            omega) hz
    · rw [if_neg hz]
      exact LInv_dec_state C L (L.nodes.length - 1) _ hInv (by omega)
        (by show (getN L.nodes (L.nodes.length - 1)).count - 1 + 1
              = (getN L.nodes (L.nodes.length - 1)).count
            omega)
        (by show 1 ≤ (getN L.nodes (L.nodes.length - 1)).count - 1; omega)

theorem LInv_erase (C : Nat) (L : Lariat) (index : Int) (hInv : LInv C L) :
    LInv C (eraseE L index).2 := by
  unfold eraseE
  by_cases h0 : index = 0
  · rw [if_pos h0]
    exact LInv_pop_front C L hInv
  · rw [if_neg h0]
    by_cases hs : index = (L.size_ : Int)
    · rw [if_pos hs]
      exact LInv_pop_back C L hInv
    · rw [if_neg hs]
      cases hfind : find_element L.nodes index with
      | none => exact hInv
      | some p =>
        obtain ⟨k, li0⟩ := p
        dsimp only
        by_cases hneg : li0 < 0
        · rw [if_pos hneg]
          exact hInv
        · rw [if_neg hneg]
          obtain ⟨hk, hlt, _⟩ := find_element_some_spec L.nodes index k li0 hfind
          have hcnt1 : 1 ≤ (getN L.nodes k).count := by omega
          by_cases hz : (shiftDown (getN L.nodes k) li0.toNat).count - 1 = 0
          · rw [if_pos hz]
            exact LInv_del_state C L k _ hInv hk
              (by show (getN L.nodes k).count - 1 + 1 = (getN L.nodes k).count; omega)
              hz
          · rw [if_neg hz]
            have hz2 : 1 ≤ (getN L.nodes k).count - 1 := by
              have : (shiftDown (getN L.nodes k) li0.toNat).count
                  = (getN L.nodes k).count := rfl
              omega
            exact LInv_dec_state C L k _ hInv hk
              (by show (getN L.nodes k).count - 1 + 1 = (getN L.nodes k).count; omega)
              hz2

theorem LInv_insert (C : Nat) (L : Lariat) (index : Int) (v : Nat)
    (hC : 0 < C) (hInv : LInv C L) :
    LInv C (insertE C true L index v).2 := by
  by_cases hr : index < 0 ∨ (L.size_ : Int) < index
  · unfold insertE
    rw [if_pos hr]
    exact hInv
  · by_cases h1 : index = (L.size_ : Int)
    · unfold insertE
      rw [if_neg hr, if_pos h1]
      exact LInv_push_back C L v hC hInv
    · by_cases h2 : index = 0
      · unfold insertE
        rw [if_neg hr, if_neg h1, if_pos h2]
        exact LInv_push_front C L v hC hInv
      · cases hfind : find_element L.nodes index with
        | none =>
          unfold insertE
          rw [if_neg hr, if_neg h1, if_neg h2, hfind]
          exact hInv
        | some p =>
          obtain ⟨k, li0⟩ := p
          obtain ⟨hk, hlt, hnn⟩ := find_element_some_spec L.nodes index k li0 hfind
          by_cases h3 : (getN L.nodes k).count < C
          · rw [insertE_spare C true L index v k li0 hr h1 h2 hfind h3]
            exact LInv_setN_incr C L k _ hInv hk rfl (by omega)
          · rw [insertE_full C true L index v k li0 hr h1 h2 hfind h3]
            have hCk : (getN L.nodes k).count = C := by
              have := hInv.2.2.1 _ (getN_mem L.nodes k hk)
              omega
            have hli : li0.toNat < (getN L.nodes k).count := by
              have hge : 0 ≤ index := by omega
              have := hnn hge
              omega
            obtain ⟨hok, htrav, hsz, ⟨A, B, hn, hAc, hBc⟩, hnc⟩ :=
              insert_in_full_nodeE_parts C L k li0.toNat v hk hli hCk
            have hns : numSplitOf C < C := numSplitOf_lt C hC
            have hle : numSplitOf C ≤ C := numSplitOf_le C
            exact LInv_two_mid_state C L k A B _ hInv hk (by omega) (by omega)
              (by omega) (by omega) (by omega) hn hsz hnc

theorem mem_getN (ns : List LNode) (a : LNode) (ha : a ∈ ns) :
    ∃ j, j < ns.length ∧ a = getN ns j := by
  obtain ⟨j, hj, hget⟩ := List.mem_iff_getElem.mp ha
  refine ⟨j, hj, ?_⟩
  rw [getN, List.getD, List.get?_eq_getElem?, List.getElem?_eq_getElem hj]
  exact hget.symm

theorem take_succ_getN (ns : List LNode) (k : Nat) (h : k < ns.length) :
    ns.take (k + 1) = ns.take k ++ [getN ns k] := by
  conv_lhs => rw [nodes_decomp ns k h]
  rw [show k + 1 = (ns.take k).length + 1 from by rw [List.length_take]; omega,
    List.take_append]
  simp

theorem trav_take_succ (ns : List LNode) (k : Nat) (h : k < ns.length) :
    trav (ns.take (k + 1)) = trav (ns.take k) ++ (getN ns k).live := by
  rw [take_succ_getN ns k h, trav_append, trav_cons]
  simp [trav]

theorem take_setN_le (ns : List LNode) (k j : Nat) (n : LNode) (h : j ≤ k) :
    (setN ns k n).take j = ns.take j := by
  apply List.ext_getElem?
  intro i
  rw [List.getElem?_take, List.getElem?_take]
  by_cases hi : i < j
  · rw [if_pos hi, if_pos hi]
    show (ns.set k n)[i]? = ns[i]?
    exact List.getElem?_set_ne (by omega)
  · rw [if_neg hi, if_neg hi]

theorem live_count_zero (n : LNode) (h : n.count = 0) : n.live = [] := by
  simp [LNode.live, h]

theorem sumCounts_const (C : Nat) : ∀ ns : List LNode,
    (∀ j, j < ns.length → (getN ns j).count = C) → sumCounts ns = C * ns.length := by
  intro ns
  induction ns with
  | nil => intro _; simp [sumCounts]
  | cons a tl ih =>
    intro h
    have h0 := h 0 (by simp)
    rw [getN_cons_zero] at h0
    have hrest : ∀ j, j < tl.length → (getN tl j).count = C := by
      intro j hj
      have := h (j + 1) (by simp; omega)
      rwa [getN_cons_succ] at this
    rw [sumCounts_cons, ih hrest, List.length_cons, h0]
    ring

theorem compactInner_preserves (C : Nat) (orig : List LNode) (r : Nat)
    (hC : 0 < C) (hrc : (getN orig r).count ≤ C) :
    ∀ (cnt : Nat) (nodes : List LNode) (l i : Nat),
    InnerInv C orig nodes r l i →
    i + cnt = (getN orig r).count →
    InnerInv C orig (compactInner C r nodes l i cnt).1 r
      (compactInner C r nodes l i cnt).2 (getN orig r).count := by
  intro cnt
  induction cnt with
  | zero =>
    intro nodes l i hInv hsum
    have hi : i = (getN orig r).count := by omega
    rw [show compactInner C r nodes l i 0 = (nodes, l) from rfl]
    rw [← hi]
    exact hInv
  | succ cnt ih =>
    intro nodes l i hInv hsum
    obtain ⟨hlen, hlr, hrn, hpre, hcur, hzero, hur, her, hsuf, htrav⟩ := hInv
    have hiC : i < (getN orig r).count := by omega
    have hln : l < nodes.length := by omega
    have hval : (getN nodes r).values i = (getN orig r).values i := by
      rcases Nat.lt_or_ge l r with h | h
      · rw [hur h]
        rfl
      · exact (her (by omega)).2 i (le_refl i)
    have hred : compactInner C r nodes l i (cnt + 1)
        = compactInner C r
            (setN nodes l
              { count := (getN nodes l).count + 1
                values := updSlot (getN nodes l).values (getN nodes l).count
                    ((getN nodes r).values i) })
            (if (getN (setN nodes l
                  { count := (getN nodes l).count + 1
                    values := updSlot (getN nodes l).values (getN nodes l).count
                        ((getN nodes r).values i) }) l).count = C
              then l + 1 else l)
            (i + 1) cnt := rfl
    rw [hred]
    have hcond : (getN (setN nodes l
        { count := (getN nodes l).count + 1
          values := updSlot (getN nodes l).values (getN nodes l).count
              ((getN nodes r).values i) }) l).count = (getN nodes l).count + 1 := by
      rw [getN_setN_self nodes l _ hln]
    rw [hcond]
    have htk : (setN nodes l
        { count := (getN nodes l).count + 1
          values := updSlot (getN nodes l).values (getN nodes l).count
              ((getN nodes r).values i) }).take (l + 1)
        = nodes.take l ++
          [{ count := (getN nodes l).count + 1
             values := updSlot (getN nodes l).values (getN nodes l).count
                 ((getN nodes r).values i) }] := by
      rw [take_succ_getN _ l (by rw [length_setN]; omega),
        getN_setN_self nodes l _ hln, take_setN_le nodes l l _ (le_refl l)]
    have ht2 := trav_take_succ nodes l hln
    rw [ht2] at htrav
    by_cases hstep : (getN nodes l).count + 1 = C
    · rw [if_pos hstep]
      have hlR : l < r := by
        by_contra hcon
        have hlr2 : l = r := by omega
        have h1 := (her hlr2).1
        rw [hlr2] at hstep
        omega
      apply ih
      · refine ⟨?_, by omega, hrn, ?_, ?_, ?_, ?_, ?_, ?_, ?_⟩
        · rw [length_setN]
          exact hlen
        · intro j hj
          by_cases hjl : j = l
          · rw [hjl, getN_setN_self nodes l _ hln]
            exact hstep
          · rw [getN_setN_ne nodes l j _ hjl]
            exact hpre j (by omega)
        · rw [getN_setN_ne nodes l (l + 1) _ (by omega)]
          by_cases hr1 : l + 1 = r
          · rw [hr1, hur hlR]
            exact hC
          · rw [hzero (l + 1) (by omega) (by omega)]
            exact hC
        · intro j hj1 hj2
          rw [getN_setN_ne nodes l j _ (by omega)]
          exact hzero j (by omega) hj2
        · intro h
          rw [getN_setN_ne nodes l r _ (by omega)]
          exact hur hlR
        · intro h
          refine ⟨?_, ?_⟩
          · rw [getN_setN_ne nodes l r _ (by omega), hur hlR]
            exact Nat.succ_pos i
          · intro s hs
            rw [getN_setN_ne nodes l r _ (by omega), hur hlR]
            rfl
        · intro j hj1 hj2
          rw [getN_setN_ne nodes l j _ (by omega)]
          exact hsuf j hj1 hj2
        · rw [trav_take_succ _ (l + 1) (by rw [length_setN]; omega)]
          have hempty : (getN (setN nodes l
              { count := (getN nodes l).count + 1
                values := updSlot (getN nodes l).values (getN nodes l).count
                    ((getN nodes r).values i) }) (l + 1)).count = 0 := by
            rw [getN_setN_ne nodes l (l + 1) _ (by omega)]
            by_cases hr1 : l + 1 = r
            · rw [hr1, hur hlR]
              rfl
            · exact hzero (l + 1) (by omega) (by omega)
          rw [live_count_zero _ hempty, List.append_nil, htk, trav_append, trav_cons,
            live_snoc, show trav ([] : List LNode) = [] from rfl, List.append_nil,
            ← List.append_assoc, htrav, hval, List.range_succ, List.map_append,
            List.append_assoc]
          rfl
      · omega
    · rw [if_neg hstep]
      apply ih
      · refine ⟨?_, hlr, hrn, ?_, ?_, ?_, ?_, ?_, ?_, ?_⟩
        · rw [length_setN]
          exact hlen
        · intro j hj
          rw [getN_setN_ne nodes l j _ (by omega)]
          exact hpre j hj
        · rw [getN_setN_self nodes l _ hln]
          show (getN nodes l).count + 1 < C
          omega
        · intro j hj1 hj2
          rw [getN_setN_ne nodes l j _ (by omega)]
          exact hzero j hj1 hj2
        · intro h
          rw [getN_setN_ne nodes l r _ (by omega)]
          exact hur h
        · intro h
          have h1 := her h
          subst h
          rw [getN_setN_self nodes l _ hln]
          refine ⟨?_, ?_⟩
          · show (getN nodes l).count + 1 < i + 1
            omega
          · intro s hs
            show updSlot (getN nodes l).values (getN nodes l).count
                ((getN nodes l).values i) s = (getN orig l).values s
            rw [updSlot_ne _ _ _ _ (by omega)]
            exact h1.2 s (by omega)
        · intro j hj1 hj2
          rw [getN_setN_ne nodes l j _ (by omega)]
          exact hsuf j hj1 hj2
        · rw [htk, trav_append, trav_cons, live_snoc,
            show trav ([] : List LNode) = [] from rfl, List.append_nil,
            ← List.append_assoc, htrav, hval, List.range_succ, List.map_append,
            List.append_assoc]
          rfl
      · omega

theorem compactOuter_preserves (C : Nat) (orig : List LNode) (hC : 0 < C)
    (horig : ∀ m ∈ orig, m.count ≤ C) :
    ∀ (steps : Nat) (nodes : List LNode) (l r : Nat),
    OuterInv C orig nodes l r →
    orig.length - r ≤ steps →
    ∃ l2, OuterInv C orig (compactOuter C nodes l r steps) l2 orig.length := by
  intro steps
  induction steps with
  | zero =>
    intro nodes l r hInv hfuel
    have hrn : r = orig.length := by
      have := hInv.2.2.1
      omega
    refine ⟨l, ?_⟩
    rw [show compactOuter C nodes l r 0 = nodes from rfl, ← hrn]
    exact hInv
  | succ steps ih =>
    intro nodes l r hInv hfuel
    obtain ⟨hlen, hlr, hrn, hpre, hcur, hzero, hsuf, htrav⟩ := hInv
    have hred : compactOuter C nodes l r (steps + 1)
        = if r < nodes.length then
            compactOuter C
              (compactInner C r (setN nodes r (zeroCount (getN nodes r)))
                (if (getN (setN nodes r (zeroCount (getN nodes r))) l).count = C
                  then l + 1 else l)
                0 (getN nodes r).count).1
              (compactInner C r (setN nodes r (zeroCount (getN nodes r)))
                (if (getN (setN nodes r (zeroCount (getN nodes r))) l).count = C
                  then l + 1 else l)
                0 (getN nodes r).count).2
              (r + 1) steps
          else nodes := rfl
    rw [hred]
    by_cases hr : r < nodes.length
    · rw [if_pos hr]
      have hrlt : r < orig.length := by omega
      have hgr : getN nodes r = getN orig r := hsuf r (le_refl r) hrlt
      have hnostep : (getN (setN nodes r (zeroCount (getN nodes r))) l).count
          = (getN nodes l).count := by
        rw [getN_setN_ne nodes r l _ (by omega)]
      rw [hnostep, if_neg (by omega)]
      have hrcC : (getN orig r).count ≤ C := horig _ (getN_mem orig r hrlt)
      have hentry : InnerInv C orig (setN nodes r (zeroCount (getN nodes r))) r l 0 := by
        refine ⟨?_, by omega, hrlt, ?_, ?_, ?_, ?_, ?_, ?_, ?_⟩
        · rw [length_setN]
          exact hlen
        · intro j hj
          rw [getN_setN_ne nodes r j _ (by omega)]
          exact hpre j hj
        · rw [getN_setN_ne nodes r l _ (by omega)]
          exact hcur
        · intro j hj1 hj2
          rw [getN_setN_ne nodes r j _ (by omega)]
          exact hzero j hj1 hj2
        · intro h
          rw [getN_setN_self nodes r _ hr, hgr]
        · intro h
          omega
        · intro j hj1 hj2
          rw [getN_setN_ne nodes r j _ (by omega)]
          exact hsuf j (by omega) hj2
        · rw [take_setN_le nodes r (l + 1) _ (by omega), htrav]
          simp
      have hInner := compactInner_preserves C orig r hC hrcC (getN nodes r).count
        (setN nodes r (zeroCount (getN nodes r))) l 0 hentry (by rw [hgr]; omega)
      obtain ⟨hlen1, hlr1, hrn1, hpre1, hcur1, hzero1, hur1, her1, hsuf1, htrav1⟩ := hInner
      apply ih
      · refine ⟨hlen1, by omega, by omega, hpre1, hcur1, ?_, ?_, ?_⟩
        · intro j hj1 hj2
          by_cases hjr : j = r
          · have hlR : (compactInner C r (setN nodes r (zeroCount (getN nodes r))) l 0
                (getN nodes r).count).2 < r := by omega
            rw [hjr, hur1 hlR]
            rfl
          · exact hzero1 j hj1 (by omega)
        · intro j hj1 hj2
          exact hsuf1 j (by omega) hj2
        · rw [htrav1, trav_take_succ orig r hrlt]
          rfl
      · omega
    · rw [if_neg hr]
      have hrn2 : r = orig.length := by omega
      refine ⟨l, ?_⟩
      rw [← hrn2]
      exact ⟨hlen, hlr, hrn, hpre, hcur, hzero, hsuf, htrav⟩

theorem compactSkip_spec (C : Nat) (nodes : List LNode) :
    ∀ (fuel l : Nat), l < nodes.length →
    (∀ j, j < l → (getN nodes j).count = C) →
    nodes.length - l ≤ fuel →
    compactSkip C nodes l fuel < nodes.length ∧
    (∀ j, j < compactSkip C nodes l fuel → (getN nodes j).count = C) ∧
    ¬((getN nodes (compactSkip C nodes l fuel)).count = C ∧
      compactSkip C nodes l fuel + 1 < nodes.length) := by
  intro fuel
  induction fuel with
  | zero =>
    intro l hl hpre hfuel
    omega
  | succ fuel ih =>
    intro l hl hpre hfuel
    have hred : compactSkip C nodes l (fuel + 1)
        = if (getN nodes l).count = C ∧ l + 1 < nodes.length
          then compactSkip C nodes (l + 1) fuel else l := rfl
    by_cases hcond : (getN nodes l).count = C ∧ l + 1 < nodes.length
    · rw [hred, if_pos hcond]
      exact ih (l + 1) hcond.2
        (fun j hj => by
          rcases Nat.lt_or_ge j l with h | h
          · exact hpre j h
          · have : j = l := by omega
            rw [this]
            exact hcond.1)
        (by omega)
    · rw [hred, if_neg hcond]
      exact ⟨hl, hpre, hcond⟩

theorem dropWhile_zero_append (B : List LNode)
    (hB : B = [] ∨ ∃ b B2, B = b :: B2 ∧ b.count ≠ 0) :
    ∀ A : List LNode, (∀ a ∈ A, a.count = 0) →
    (A ++ B).dropWhile (fun n => n.count = 0) = B := by
  intro A
  induction A with
  | nil =>
    intro _
    rcases hB with h | ⟨b, B2, hb, hbc⟩
    · rw [h]
      rfl
    · rw [List.nil_append, hb, List.dropWhile_cons, if_neg (by simp [hbc])]
  | cons a A2 ih =>
    intro h
    have ha : a.count = 0 := h a (by simp)
    rw [List.cons_append, List.dropWhile_cons, if_pos (by simp [ha])]
    exact ih (fun x hx => h x (by simp [hx]))

theorem dropTrailingZeros_eq_take (ns : List LNode) (m : Nat) (hm : m ≤ ns.length)
    (hzero : ∀ j, m ≤ j → j < ns.length → (getN ns j).count = 0)
    (hlast : m = 0 ∨ (getN ns (m - 1)).count ≠ 0) :
    dropTrailingZeros ns = ns.take m := by
  unfold dropTrailingZeros
  have hrev : ns.reverse = (ns.drop m).reverse ++ (ns.take m).reverse := by
    rw [← List.reverse_append, List.take_append_drop]
  rw [hrev, dropWhile_zero_append ((ns.take m).reverse) ?hB ((ns.drop m).reverse) ?hA,
    List.reverse_reverse]
  case hA =>
    intro a ha
    rw [List.mem_reverse] at ha
    obtain ⟨j, hj, hget⟩ := mem_getN _ a ha
    rw [hget, getN_drop]
    exact hzero (m + j) (by omega) (by rw [List.length_drop] at hj; omega)
  case hB =>
    rcases hlast with h0 | hne
    · left
      rw [h0]
      rfl
    · right
      have hm1 : 0 < m := by
        by_contra hcon
        have hm0 : m = 0 := by omega
        rcases Nat.eq_zero_or_pos ns.length with hl0 | hlpos
        · apply hne
          show (ns.getD (m - 1) newLNode).count = 0
          rw [List.getD_eq_default]
          · rfl
          · omega
        · exact hne (by rw [hm0]; exact hzero 0 (by omega) hlpos)
      refine ⟨getN ns (m - 1), (ns.take (m - 1)).reverse, ?_, hne⟩
      rw [show ns.take m = ns.take (m - 1) ++ [getN ns (m - 1)] from ?_,
        List.reverse_append]
      · rfl
      · rw [show m = (m - 1) + 1 from by omega]
        exact take_succ_getN ns (m - 1) (by omega)

theorem compactOuter_stop (C : Nat) (nodes : List LNode) (l r : Nat)
    (h : ¬ r < nodes.length) : ∀ steps, compactOuter C nodes l r steps = nodes := by
  intro steps
  cases steps with
  | zero => rfl
  | succ s =>
    rw [compactOuter, if_neg h]

theorem take_all_of_length (ns : List LNode) : ns.take ns.length = ns :=
  List.take_length ns

theorem compactL_spec (C : Nat) (L : Lariat) (hC : 0 < C) (hInv : LInv C L) :
    traversal (compactL C L) = traversal L ∧
    (compactL C L).size_ = L.size_ ∧
    LInv C (compactL C L) ∧
    (∀ j, j + 1 < (compactL C L).nodes.length →
      (getN (compactL C L).nodes j).count = C) ∧
    (compactL C L).nodes.length = (L.size_ + C - 1) / C := by
  obtain ⟨hsz, hnc, hcap, hpos⟩ := hInv
  cases hn : L.nodes with
  | nil =>
    have hred : compactL C L = L := by
      unfold compactL
      rw [hn]
    have hsz0 : L.size_ = 0 := by
      rw [hsz, hn]
      rfl
    rw [hred]
    refine ⟨rfl, rfl, ⟨hsz, hnc, hcap, hpos⟩, ?_, ?_⟩
    · intro j hj
      rw [hn] at hj
      simp at hj
    · rw [hn, hsz0, List.length_nil, Nat.div_eq_of_lt (by omega)]
  | cons a tl =>
    have hlen0 : 0 < L.nodes.length := by
      rw [hn]
      simp
    have hred : compactL C L
        = { L with
            nodes := dropTrailingZeros (compactOuter C L.nodes
              (compactSkip C L.nodes 0 L.nodes.length)
              (compactSkip C L.nodes 0 L.nodes.length + 1) L.nodes.length)
            nodecount_ := L.nodecount_ -
              ((compactOuter C L.nodes
                (compactSkip C L.nodes 0 L.nodes.length)
                (compactSkip C L.nodes 0 L.nodes.length + 1) L.nodes.length).length
              - (dropTrailingZeros (compactOuter C L.nodes
                  (compactSkip C L.nodes 0 L.nodes.length)
                  (compactSkip C L.nodes 0 L.nodes.length + 1)
                  L.nodes.length)).length) } := by
      conv_lhs => unfold compactL
      rw [hn]
    obtain ⟨hl0n, hl0pre, hl0stop⟩ := compactSkip_spec C L.nodes L.nodes.length 0 hlen0
      (fun j hj => absurd hj (by omega)) (by omega)
    by_cases hfull : (getN L.nodes (compactSkip C L.nodes 0 L.nodes.length)).count = C
    · -- the skip loop walked to the last node and every node is full
      have hend : compactSkip C L.nodes 0 L.nodes.length + 1 = L.nodes.length := by
        by_contra hcon
        exact hl0stop ⟨hfull, by omega⟩
      have hall : ∀ j, j < L.nodes.length → (getN L.nodes j).count = C := by
        intro j hj
        rcases Nat.lt_or_ge j (compactSkip C L.nodes 0 L.nodes.length) with h | h
        · exact hl0pre j h
        · have : j = compactSkip C L.nodes 0 L.nodes.length := by omega
          rw [this]
          exact hfull
      have houter : compactOuter C L.nodes
          (compactSkip C L.nodes 0 L.nodes.length)
          (compactSkip C L.nodes 0 L.nodes.length + 1) L.nodes.length
          = L.nodes :=
        compactOuter_stop C L.nodes _ _ (by omega) _
      have hdrop : dropTrailingZeros L.nodes = L.nodes := by
        rw [dropTrailingZeros_eq_take L.nodes L.nodes.length (le_refl _)
          (fun j h1 h2 => absurd h1 (by omega))
          (Or.inr (by rw [hall (L.nodes.length - 1) (by omega)]; omega)),
          take_all_of_length]
      have hres : compactL C L = L := by
        rw [hred, houter, hdrop, Nat.sub_self, Nat.sub_zero]
      have hS : L.size_ = C * L.nodes.length := by
        rw [hsz, sumCounts_const C L.nodes hall]
      rw [hres]
      refine ⟨rfl, rfl, ⟨hsz, hnc, hcap, hpos⟩, fun j hj => hall j (by omega), ?_⟩
      rw [hS, show C * L.nodes.length + C - 1 = (C - 1) + C * L.nodes.length from by omega,
        Nat.add_mul_div_left _ _ hC, Nat.div_eq_of_lt (by omega)]
      omega
    · -- the destination node has spare room: run the repacking loop
      have hcurlt : (getN L.nodes (compactSkip C L.nodes 0 L.nodes.length)).count < C := by
        have := hcap _ (getN_mem L.nodes _ hl0n)
        omega
      obtain ⟨l2, hOut⟩ := compactOuter_preserves C L.nodes hC hcap L.nodes.length
        L.nodes (compactSkip C L.nodes 0 L.nodes.length)
        (compactSkip C L.nodes 0 L.nodes.length + 1)
        ⟨rfl, by omega, by omega, hl0pre, hcurlt,
          fun j h1 h2 => absurd h1 (by omega), fun j h1 h2 => rfl, rfl⟩
        (by omega)
      obtain ⟨hlen1, hlr1, hrle1, hpre1, hcur1, hzero1, hsuf1, htrav1⟩ := hOut
      have hl2n : l2 < L.nodes.length := by omega
      have htravfull : trav ((compactOuter C L.nodes
          (compactSkip C L.nodes 0 L.nodes.length)
          (compactSkip C L.nodes 0 L.nodes.length + 1) L.nodes.length).take (l2 + 1))
          = trav L.nodes := by
        rw [htrav1, take_all_of_length]
      have hsplit : sumCounts L.nodes
          = C * l2 + (getN (compactOuter C L.nodes
              (compactSkip C L.nodes 0 L.nodes.length)
              (compactSkip C L.nodes 0 L.nodes.length + 1) L.nodes.length) l2).count := by
        have h1 : sumCounts L.nodes = ((trav L.nodes)).length := (trav_length _).symm
        rw [h1, ← htravfull, trav_length,
          take_succ_getN _ l2 (by omega), sumCounts_append, sumCounts_cons,
          sumCounts_const C _ (fun j hj => by
            rw [getN_take _ _ _ (by rw [List.length_take] at hj; omega)]
            exact hpre1 j (by rw [List.length_take] at hj; omega)),
          List.length_take]
        have : min l2 (compactOuter C L.nodes
            (compactSkip C L.nodes 0 L.nodes.length)
            (compactSkip C L.nodes 0 L.nodes.length + 1) L.nodes.length).length = l2 := by
          omega
        rw [this, show sumCounts [] = 0 from rfl]
        omega
      set ns1 := compactOuter C L.nodes (compactSkip C L.nodes 0 L.nodes.length)
        (compactSkip C L.nodes 0 L.nodes.length + 1) L.nodes.length with hns1
      by_cases hz : (getN ns1 l2).count = 0
      · have hdrop : dropTrailingZeros ns1 = ns1.take l2 := by
          apply dropTrailingZeros_eq_take ns1 l2 (by omega)
          · intro j h1 h2
            rcases Nat.lt_or_ge l2 j with h | h
            · exact hzero1 j h (by omega)
            · have hje : j = l2 := by omega
              rw [hje]
              exact hz
          · rcases Nat.eq_zero_or_pos l2 with h0 | hpos2
            · exact Or.inl h0
            · exact Or.inr (by rw [hpre1 (l2 - 1) (by omega)]; omega)
        have hlen2 : (ns1.take l2).length = l2 := by
          rw [List.length_take]
          omega
        have htrav2 : trav (ns1.take l2) = trav L.nodes := by
          rw [← htravfull, trav_take_succ ns1 l2 (by omega), live_count_zero _ hz,
            List.append_nil]
        have hsum2 : sumCounts (ns1.take l2) = sumCounts L.nodes := by
          rw [← trav_length, htrav2, trav_length]
        have hres : compactL C L
            = { L with
                nodes := ns1.take l2
                nodecount_ := L.nodecount_ - (ns1.length - l2) } := by
          rw [hred, hdrop, hlen2]
        rw [hres]
        refine ⟨?_, rfl, ⟨?_, ?_, ?_, ?_⟩, ?_, ?_⟩
        · rw [traversal_eq_trav, traversal_eq_trav]
          exact htrav2
        · show L.size_ = sumCounts (ns1.take l2)
          rw [hsum2]
          exact hsz
        · show L.nodecount_ - (ns1.length - l2) = (ns1.take l2).length
          rw [hlen2]
          omega
        · intro x hx
          obtain ⟨j, hj, hxe⟩ := mem_getN _ x hx
          rw [hlen2] at hj
          rw [hxe, getN_take ns1 l2 j hj, hpre1 j hj]
        · intro x hx
          obtain ⟨j, hj, hxe⟩ := mem_getN _ x hx
          rw [hlen2] at hj
          rw [hxe, getN_take ns1 l2 j hj, hpre1 j hj]
          exact hC
        · intro j hj
          show (getN (ns1.take l2) j).count = C
          have hj1 : j + 1 < (ns1.take l2).length := hj
          have hj2 : j + 1 < l2 := by
            rw [hlen2] at hj1
            omega
          rw [getN_take ns1 l2 j (by omega)]
          exact hpre1 j (by omega)
        · show (ns1.take l2).length = (L.size_ + C - 1) / C
          rw [hlen2, hsz, hsplit, hz,
            show C * l2 + 0 + C - 1 = (C - 1) + C * l2 from by omega,
            Nat.add_mul_div_left _ _ hC, Nat.div_eq_of_lt (by omega)]
          omega
      · have hc21 : 1 ≤ (getN ns1 l2).count := by omega
        have hdrop : dropTrailingZeros ns1 = ns1.take (l2 + 1) := by
          apply dropTrailingZeros_eq_take ns1 (l2 + 1) (by omega)
          · intro j h1 h2
            exact hzero1 j (by omega) (by omega)
          · exact Or.inr hz
        have hlen2 : (ns1.take (l2 + 1)).length = l2 + 1 := by
          rw [List.length_take]
          omega
        have hsum2 : sumCounts (ns1.take (l2 + 1)) = sumCounts L.nodes := by
          rw [← trav_length, htravfull, trav_length]
        have hres : compactL C L
            = { L with
                nodes := ns1.take (l2 + 1)
                nodecount_ := L.nodecount_ - (ns1.length - (l2 + 1)) } := by
          rw [hred, hdrop, hlen2]
        rw [hres]
        refine ⟨?_, rfl, ⟨?_, ?_, ?_, ?_⟩, ?_, ?_⟩
        · rw [traversal_eq_trav, traversal_eq_trav]
          exact htravfull
        · show L.size_ = sumCounts (ns1.take (l2 + 1))
          rw [hsum2]
          exact hsz
        · show L.nodecount_ - (ns1.length - (l2 + 1)) = (ns1.take (l2 + 1)).length
          rw [hlen2]
          omega
        · intro x hx
          obtain ⟨j, hj, hxe⟩ := mem_getN _ x hx
          rw [hlen2] at hj
          rw [hxe, getN_take ns1 (l2 + 1) j hj]
          by_cases hjl : j = l2
          · rw [hjl]
            omega
          · rw [hpre1 j (by omega)]
        · intro x hx
          obtain ⟨j, hj, hxe⟩ := mem_getN _ x hx
          rw [hlen2] at hj
          rw [hxe, getN_take ns1 (l2 + 1) j hj]
          by_cases hjl : j = l2
          · rw [hjl]
            exact hc21
          · rw [hpre1 j (by omega)]
            exact hC
        · intro j hj
          show (getN (ns1.take (l2 + 1)) j).count = C
          have hj1 : j + 1 < (ns1.take (l2 + 1)).length := hj
          have hj2 : j + 1 < l2 + 1 := by
            rw [hlen2] at hj1
            omega
          rw [getN_take ns1 (l2 + 1) j (by omega)]
          exact hpre1 j (by omega)
        · show (ns1.take (l2 + 1)).length = (L.size_ + C - 1) / C
          rw [hlen2, hsz, hsplit,
            show C * l2 + (getN ns1 l2).count + C - 1
              = ((getN ns1 l2).count - 1) + C * (l2 + 1) from by rw [Nat.mul_succ]; omega,
            Nat.add_mul_div_left _ _ hC, Nat.div_eq_of_lt (by omega)]
          omega

theorem LInv_compact (C : Nat) (L : Lariat) (hC : 0 < C) (hInv : LInv C L) :
    LInv C (compactL C L) :=
  (compactL_spec C L hC hInv).2.2.1

theorem LInv_clear (C : Nat) (L : Lariat) : LInv C (clearL L) := by
  refine ⟨rfl, rfl, ?_, ?_⟩ <;> intro n hn <;> simp [clearL] at hn

theorem LInv_applyOp (C : Nat) (L : Lariat) (op : Op) (hC : 0 < C) (hInv : LInv C L) :
    LInv C (applyOp C L op) := by
  cases op with
  | push_back v => exact LInv_push_back C L v hC hInv
  | push_front v => exact LInv_push_front C L v hC hInv
  | insert i v => exact LInv_insert C L i v hC hInv
  | erase i => exact LInv_erase C L i hInv
  | pop_front => exact LInv_pop_front C L hInv
  | pop_back =>
    show LInv C (if L.nodes.isEmpty then L else (pop_backE L).2)
    by_cases he : L.nodes.isEmpty
    · rw [if_pos he]
      exact hInv
    · rw [if_neg he]
      exact LInv_pop_back C L hInv
  | compact => exact LInv_compact C L hC hInv
  | clear => exact LInv_clear C L

theorem LInv_runOps (C : Nat) (ops : List Op) (hC : 0 < C) : LInv C (runOps C ops) := by
  unfold runOps
  have hgen : ∀ (l : List Op) (L : Lariat), LInv C L → LInv C (l.foldl (applyOp C) L) := by
    intro l
    induction l with
    | nil => intro L h; exact h
    | cons op rest ih =>
      intro L h
      exact ih (applyOp C L op) (LInv_applyOp C L op hC h)
  exact hgen ops emptyLariat (LInv_emptyLariat C)

/-- Claim C2: for every sequence of public operations run from the empty
container with positive capacity `C`, the `size_` field equals the number of
live elements reachable by walking the segment chain from head to tail and
summing each segment's count. -/
theorem size_eq_reachable (C : Nat) (ops : List Op) (hC : 0 < C) :
    (runOps C ops).size_ = sumCounts (runOps C ops).nodes :=
  (LInv_runOps C ops hC).1

theorem size_eq_reachable_witness :
    (runOps 4 [Op.push_back 1, Op.push_back 2, Op.push_back 3, Op.insert 1 9,
      Op.erase 2, Op.pop_front]).size_
      = sumCounts (runOps 4 [Op.push_back 1, Op.push_back 2, Op.push_back 3,
          Op.insert 1 9, Op.erase 2, Op.pop_front]).nodes :=
  size_eq_reachable 4 [Op.push_back 1, Op.push_back 2, Op.push_back 3,
    Op.insert 1 9, Op.erase 2, Op.pop_front] (by decide)

/-- Claim C3: after any sequence of public operations on valid inputs, every
segment in the chain has `count ≤ C`, and every segment — in particular every
segment other than the last — holds at least one live element, so a count
reaches 0 only transiently inside an operation, never in a resulting state. -/
theorem segment_count_bounds (C : Nat) (ops : List Op) (hC : 0 < C) :
    (∀ n ∈ (runOps C ops).nodes, n.count ≤ C) ∧
    (∀ n ∈ (runOps C ops).nodes, 1 ≤ n.count) :=
  ⟨(LInv_runOps C ops hC).2.2.1, (LInv_runOps C ops hC).2.2.2⟩

theorem segment_count_bounds_witness :
    ((∀ n ∈ (runOps 4 [Op.push_back 1, Op.push_back 2, Op.push_back 3, Op.push_back 4,
        Op.push_back 5, Op.erase 1, Op.pop_back]).nodes, n.count ≤ 4) ∧
      (∀ n ∈ (runOps 4 [Op.push_back 1, Op.push_back 2, Op.push_back 3, Op.push_back 4,
        Op.push_back 5, Op.erase 1, Op.pop_back]).nodes, 1 ≤ n.count)) ∧
    (runOps 4 [Op.push_back 1, Op.push_back 2, Op.push_back 3, Op.push_back 4,
      Op.push_back 5, Op.erase 1, Op.pop_back]).nodes.map LNode.count = [2, 1] :=
  ⟨segment_count_bounds 4 [Op.push_back 1, Op.push_back 2, Op.push_back 3, Op.push_back 4,
      Op.push_back 5, Op.erase 1, Op.pop_back] (by decide),
   by decide⟩

/-- Claim C9: on a container satisfying the representation invariant,
`compact` preserves the traversal order (hence the total element count and
`size()`), packs the elements front to back so that every segment except
possibly the last is full, and leaves exactly `ceil(size / C)` segments. -/
theorem compact_correct (C : Nat) (L : Lariat) (hC : 0 < C) (hInv : LInv C L) :
    traversal (compactL C L) = traversal L ∧
    (compactL C L).size_ = L.size_ ∧
    (∀ j, j + 1 < (compactL C L).nodes.length →
      (getN (compactL C L).nodes j).count = C) ∧
    (compactL C L).nodes.length = (L.size_ + C - 1) / C :=
  ⟨(compactL_spec C L hC hInv).1, (compactL_spec C L hC hInv).2.1,
   (compactL_spec C L hC hInv).2.2.2.1, (compactL_spec C L hC hInv).2.2.2.2⟩

theorem compact_correct_witness :
    traversal (compactL 4 exSeven) = traversal exSeven ∧
    (compactL 4 exSeven).size_ = exSeven.size_ ∧
    (getN (compactL 4 exSeven).nodes 0).count = 4 ∧
    (compactL 4 exSeven).nodes.length = (exSeven.size_ + 4 - 1) / 4 ∧
    traversal exSeven = [1, 2, 3, 4, 5, 6, 7] ∧
    (compactL 4 exSeven).nodes.length = 2 :=
  ⟨(compact_correct 4 exSeven (by decide) (by decide)).1,
   (compact_correct 4 exSeven (by decide) (by decide)).2.1,
   (compact_correct 4 exSeven (by decide) (by decide)).2.2.1 0 (by decide),
   (compact_correct 4 exSeven (by decide) (by decide)).2.2.2,
   by decide, by decide⟩
